import Mathlib

/-! # ils5011: parallel-port EPROM emulator loader (`main.c`)

A shallow embedding of `main.c`.  The program parses its options, reads a
binary file into a buffer and then bit-bangs the buffer into an external memory
through the data and control registers of a PC parallel port.

* The register primitives `pp_wdata` / `pp_wcontrol` come from the port library;
  every call is recorded as one `RegWrite` event, so a run of the protocol is a
  list of register writes.
* The control-line masks are macros of the port header (`PARPORT_CONTROL_*`);
  they are parameters of the development (`ControlBits`).
* `strtoul`, `getopt_long`, `open`, `read` and `pp_open` are system calls or
  library functions; their results are inputs of the model (`Env`).
-/

namespace Ils5011

/-! ## Registers and control lines -/

/-- One write to a parallel-port register: `pp_wdata(&pp, v)` or
`pp_wcontrol(&pp, v)`. -/
inductive RegWrite where
  | wdata (v : Nat)
  | wcontrol (v : Nat)
  deriving DecidableEq, Repr

/-- The four control-line masks of `main.c` (lines 51-54).  Their values are
those of `PARPORT_CONTROL_AUTOFD`, `PARPORT_CONTROL_INIT`,
`PARPORT_CONTROL_STROBE` and `PARPORT_CONTROL_SELECT`, which the port header
defines; here they are parameters. -/
structure ControlBits where
  BIT_ADDRESS_LOW_INVERTED : Nat
  BIT_ADDRESS_HIGH_INVERTED : Nat
  BIT_DATA : Nat
  BIT_PROGRAM : Nat
  deriving DecidableEq, Repr

/-- One assignment of the masks, used to instantiate the statements: that of the
control register of the PC parallel port (STROBE = 1, AUTOFD = 2, INIT = 4,
SELECT = 8). -/
def parport : ControlBits :=
  { BIT_ADDRESS_LOW_INVERTED := 2
    BIT_ADDRESS_HIGH_INVERTED := 4
    BIT_DATA := 1
    BIT_PROGRAM := 8 }

/-- The four lines are independently assertable: every mask is non-zero and no
two masks share a bit. -/
def ControlBits.Independent (c : ControlBits) : Prop :=
  c.BIT_ADDRESS_LOW_INVERTED ≠ 0 ∧ c.BIT_ADDRESS_HIGH_INVERTED ≠ 0 ∧
  c.BIT_DATA ≠ 0 ∧ c.BIT_PROGRAM ≠ 0 ∧
  c.BIT_ADDRESS_LOW_INVERTED &&& c.BIT_ADDRESS_HIGH_INVERTED = 0 ∧
  c.BIT_ADDRESS_LOW_INVERTED &&& c.BIT_DATA = 0 ∧
  c.BIT_ADDRESS_LOW_INVERTED &&& c.BIT_PROGRAM = 0 ∧
  c.BIT_ADDRESS_HIGH_INVERTED &&& c.BIT_DATA = 0 ∧
  c.BIT_ADDRESS_HIGH_INVERTED &&& c.BIT_PROGRAM = 0 ∧
  c.BIT_DATA &&& c.BIT_PROGRAM = 0

instance (c : ControlBits) : Decidable c.Independent := by
  unfold ControlBits.Independent; infer_instance

/-- A line with mask `m` is asserted in the control value `v`. -/
def asserted (m v : Nat) : Prop := v &&& m ≠ 0

instance (m v : Nat) : Decidable (asserted m v) := by
  unfold asserted; infer_instance

/-- The idle control value `PROGRAM | ADDR_LOW_INV | ADDR_HIGH_INV`. -/
def idle (c : ControlBits) : Nat :=
  c.BIT_PROGRAM ||| c.BIT_ADDRESS_LOW_INVERTED ||| c.BIT_ADDRESS_HIGH_INVERTED

/-! ## The protocol functions (lines 56-85)

The argument of the three byte-writing functions is a `uint8_t`, hence the
`% 256` at function entry. -/

/-- `write_address_low` (lines 56-61). -/
def write_address_low (c : ControlBits) (address_low : Nat) : List RegWrite :=
  [ RegWrite.wdata (address_low % 256),
    RegWrite.wcontrol (c.BIT_PROGRAM ||| c.BIT_ADDRESS_HIGH_INVERTED),
    RegWrite.wcontrol
      (c.BIT_PROGRAM ||| c.BIT_ADDRESS_LOW_INVERTED ||| c.BIT_ADDRESS_HIGH_INVERTED) ]

/-- `write_address_high` (lines 63-68). -/
def write_address_high (c : ControlBits) (address_high : Nat) : List RegWrite :=
  [ RegWrite.wdata (address_high % 256),
    RegWrite.wcontrol (c.BIT_PROGRAM ||| c.BIT_ADDRESS_LOW_INVERTED),
    RegWrite.wcontrol
      (c.BIT_PROGRAM ||| c.BIT_ADDRESS_LOW_INVERTED ||| c.BIT_ADDRESS_HIGH_INVERTED) ]

/-- `write_data` (lines 70-75). -/
def write_data (c : ControlBits) (data : Nat) : List RegWrite :=
  [ RegWrite.wdata (data % 256),
    RegWrite.wcontrol
      (c.BIT_PROGRAM ||| c.BIT_ADDRESS_LOW_INVERTED ||| c.BIT_ADDRESS_HIGH_INVERTED
        ||| c.BIT_DATA),
    RegWrite.wcontrol
      (c.BIT_PROGRAM ||| c.BIT_ADDRESS_LOW_INVERTED ||| c.BIT_ADDRESS_HIGH_INVERTED) ]

/-- `program_enable` (lines 77-80). -/
def program_enable (c : ControlBits) : List RegWrite :=
  [ RegWrite.wcontrol
      (c.BIT_PROGRAM ||| c.BIT_ADDRESS_LOW_INVERTED ||| c.BIT_ADDRESS_HIGH_INVERTED) ]

/-- `program_disable` (lines 82-85). -/
def program_disable (c : ControlBits) : List RegWrite :=
  [ RegWrite.wcontrol (c.BIT_ADDRESS_LOW_INVERTED ||| c.BIT_ADDRESS_HIGH_INVERTED) ]

/-! ## Calls made by `main` on the port -/

/-- The port operations `main` performs after `pp_open`: the direct
`pp_wdata(&pp, 0)` of line 192 and calls of the five protocol functions, each
with the value passed by the caller. -/
inductive Call where
  | pp_wdata (v : Nat)
  | program_enable
  | write_address_high (address_high : Nat)
  | write_address_low (address_low : Nat)
  | write_data (data : Nat)
  | program_disable
  deriving DecidableEq, Repr

/-- The register writes a call performs. -/
def Call.regs (c : ControlBits) : Call → List RegWrite
  | Call.pp_wdata v => [RegWrite.wdata (v % 256)]
  | Call.program_enable => Ils5011.program_enable c
  | Call.write_address_high b => Ils5011.write_address_high c b
  | Call.write_address_low b => Ils5011.write_address_low c b
  | Call.write_data b => Ils5011.write_data c b
  | Call.program_disable => Ils5011.program_disable c

/-- The register-write trace of a sequence of calls. -/
def regTrace (c : ControlBits) (calls : List Call) : List RegWrite :=
  calls.flatMap (Call.regs c)

/-! ## The transfer loop (lines 196-213) -/

/-- The address-latch calls of the iteration for `addr` (lines 205-210): the
high byte when the low 8 bits of `addr` are zero, then always the low byte. -/
def latchCalls (addr : Nat) : List Call :=
  (if addr &&& 0xff = 0 then [Call.write_address_high ((addr >>> 8) &&& 255)] else []) ++
    [Call.write_address_low (addr &&& 255)]

/-- The expression `buf[addr % size]` of line 212.  It has no value when `size`
is zero (division by zero) or when the index is outside the buffer. -/
def fetch (buf : List Nat) (size addr : Nat) : Option Nat :=
  if size = 0 then none else buf[addr % size]?

/-- The loop `for (; addr < 65536; ++addr)` of lines 197-213, entered with the
cursor at `addr` and with `log`, the port calls made so far.  The result is the
log at the end and whether the loop ran to completion; it stops with `false`
when `buf[addr % size]` has no value, after the address latches of that
iteration.  The progress messages of lines 199-203 are not port operations and
are left out. -/
def transferLoop (buf : List Nat) (size : Nat) (addr : Nat) (log : Array Call) :
    Array Call × Bool :=
  if addr < 65536 then
    let log := log ++ latchCalls addr
    match fetch buf size addr with
    | none => (log, false)
    | some b => transferLoop buf size (addr + 1) (log.push (Call.write_data b))
  else (log, true)
termination_by 65536 - addr

/-- Lines 192-215: the initial data write, `program_enable`, the loop and, when
the loop completes, `program_disable`.  The result is the list of port calls
made and whether the transfer ran to completion. -/
def transfer (buf : List Nat) (size : Nat) : List Call × Bool :=
  let log := #[Call.pp_wdata 0]
  let log := log.push Call.program_enable
  let r := transferLoop buf size 0 log
  if r.2 then ((r.1.push Call.program_disable).toList, true)
  else (r.1.toList, false)

/-! ## The size option (lines 130-145) -/

/-- `UINT32_MAX` of `stdint.h`. -/
def UINT32_MAX : Nat := 4294967295

/-- `ERANGE` of `errno.h`. -/
def ERANGE : Int := 34

/-- `EINVAL` of `errno.h`. -/
def EINVAL : Int := 22

/-- `DEFAULT_SIZE` (line 47). -/
def DEFAULT_SIZE : Nat := 65536

/-- What `strtoul(optarg, &endptr, 0)` of line 133 leaves behind: its return
value `tmp`, the value of `errno` after the call (the program never clears it
before the call), and the character `*endptr` at which the conversion stopped
(0 when the whole argument was consumed). -/
structure Strtoul where
  tmp : Nat
  errno : Int
  endChar : Nat
  deriving DecidableEq, Repr

/-- The rejection condition of line 134, disjunct by disjunct.  `ULONG_MAX` is
the platform's largest `unsigned long`. -/
def sizeInvalid (ULONG_MAX : Nat) (r : Strtoul) : Bool :=
  decide (r.tmp > UINT32_MAX) || (r.tmp == ULONG_MAX && r.errno == ERANGE) ||
    (r.tmp == 0 && r.errno == EINVAL) || (r.endChar != 0) || decide (r.tmp > 65536) ||
    ((r.tmp &&& (r.tmp >>> 1)) != 0)

/-- Lines 139-143: `size = (unsigned int) tmp; if (size <= 64) size *= 1024;`
on a 32-bit `unsigned int`. -/
def effectiveSize (tmp : Nat) : Nat :=
  let size := tmp % 2 ^ 32
  if size ≤ 64 then (size * 1024) % 2 ^ 32 else size

/-- One result of `getopt_long` (lines 117-153): `-p`, `-s` with the outcome of
`strtoul` on its argument, `-h`, or anything else (the `default` branch). -/
inductive Opt where
  | port
  | size (r : Strtoul)
  | help
  | other
  deriving DecidableEq, Repr

/-- The option loop of lines 106-154 over the successive results of
`getopt_long`, carrying the current `size`.  `Except.error st` is `exit(st)`;
`Except.ok size` is the size in force when `getopt_long` returns -1. -/
def optionLoop (ULONG_MAX : Nat) : List Opt → Nat → Except Nat Nat
  | [], size => Except.ok size
  | Opt.port :: rest, size => optionLoop ULONG_MAX rest size
  | Opt.size r :: rest, _ =>
    if sizeInvalid ULONG_MAX r then Except.error 1
    else optionLoop ULONG_MAX rest (effectiveSize r.tmp)
  | Opt.help :: _, _ => Except.error 0
  | Opt.other :: _, _ => Except.error 1

/-! ## The source buffer (lines 174-183) -/

/-- Lines 174-178 when `read` succeeds: `char buf[size]`, `memset(buf, 0xff,
size)`, then `read(fd, buf, size)` stores the bytes it delivers (at most `size`
of them) at the start of the buffer. -/
def fillBuffer (size : Nat) (delivered : List Nat) : List Nat :=
  let buf := List.replicate size 0xff
  let got := delivered.take size
  got ++ buf.drop got.length

/-! ## The whole program (lines 101-220) -/

/-- What the outside world answers to one run of `main`. -/
structure Env where
  /-- The platform's `ULONG_MAX`. -/
  ULONG_MAX : Nat
  /-- The successive results of `getopt_long`, until it returns -1. -/
  opts : List Opt
  /-- Whether a file name is left on the command line (`optind < argc`). -/
  hasFilename : Bool
  /-- Whether `open` succeeds. -/
  openOk : Bool
  /-- The bytes `read` delivers; `none` when it returns a negative value. -/
  readData : Option (List Nat)
  /-- Whether `pp_open` succeeds. -/
  ppOpenOk : Bool

/-- The externally visible steps of `main`: the calls of `open`, `read`,
`pp_open` and `pp_close`, and the port operations in between. -/
inductive Effect where
  | fileOpen
  | fileRead
  | ppOpen
  | port (call : Call)
  | ppClose
  deriving DecidableEq, Repr

/-- A run of `main`: the steps performed, and the exit status (`none` when the
run is cut short by the fault of `buf[addr % size]`). -/
structure Run where
  effects : List Effect
  status : Option Nat
  deriving DecidableEq, Repr

/-- The function `main` (lines 101-220). -/
def main (env : Env) : Run :=
  match optionLoop env.ULONG_MAX env.opts DEFAULT_SIZE with
  | Except.error st => ⟨[], some st⟩
  | Except.ok size =>
    if !env.hasFilename then ⟨[], some 1⟩
    else if !env.openOk then ⟨[Effect.fileOpen], some 1⟩
    else
      match env.readData with
      | none => ⟨[Effect.fileOpen, Effect.fileRead], some 1⟩
      | some delivered =>
        let buf := fillBuffer size delivered
        if !env.ppOpenOk then ⟨[Effect.fileOpen, Effect.fileRead, Effect.ppOpen], some 1⟩
        else
          let t := transfer buf size
          if t.2 then
            ⟨[Effect.fileOpen, Effect.fileRead, Effect.ppOpen] ++ t.1.map Effect.port ++
              [Effect.ppClose], some 0⟩
          else
            ⟨[Effect.fileOpen, Effect.fileRead, Effect.ppOpen] ++ t.1.map Effect.port, none⟩

/-- The port calls among the steps of a run, in order. -/
def Run.portCalls (r : Run) : List Call :=
  r.effects.filterMap fun e =>
    match e with
    | Effect.port call => some call
    | _ => none

/-- The register writes of a run, in order. -/
def Run.regWrites (c : ControlBits) (r : Run) : List RegWrite :=
  regTrace c r.portCalls

/-! ## The external hardware

The address latches and the memory device behind the port.  They are not part
of the program; this is the behaviour the specification gives them: a latch
captures the data register when its enable line goes from deasserted to
asserted; the device stores the data register at the address
`high latch << 8 | low latch` on a control write that asserts the data
strobe. -/

/-- State of the hardware: the two port registers, the two address latches, the
65536 cells of the device memory, and the record of the stores made so far,
each as `(high latch, low latch, data)`. -/
structure Device where
  data : Nat
  control : Nat
  latchLow : Nat
  latchHigh : Nat
  mem : Array Nat
  stores : Array (Nat × Nat × Nat)

/-- Effect of one register write on the hardware. -/
def Device.step (c : ControlBits) (d : Device) : RegWrite → Device
  | RegWrite.wdata v => { d with data := v }
  | RegWrite.wcontrol v =>
    let lo :=
      if ¬ asserted c.BIT_ADDRESS_LOW_INVERTED d.control ∧
          asserted c.BIT_ADDRESS_LOW_INVERTED v then d.data else d.latchLow
    let hi :=
      if ¬ asserted c.BIT_ADDRESS_HIGH_INVERTED d.control ∧
          asserted c.BIT_ADDRESS_HIGH_INVERTED v then d.data else d.latchHigh
    if asserted c.BIT_DATA v then
      { data := d.data, control := v, latchLow := lo, latchHigh := hi,
        mem := d.mem.setD (hi <<< 8 ||| lo) d.data,
        stores := d.stores.push (hi, lo, d.data) }
    else
      { data := d.data, control := v, latchLow := lo, latchHigh := hi,
        mem := d.mem, stores := d.stores }

/-- The hardware after a trace of register writes. -/
def Device.run (c : ControlBits) (d : Device) (t : List RegWrite) : Device :=
  t.foldl (Device.step c) d

/-- The content of the memory cell at address `a`. -/
def Device.cell (d : Device) (a : Nat) : Nat := d.mem.getD a 0

/-! ## Closed forms used in the statements -/

/-- The calls of one complete iteration of the loop for `addr`: the address
latches, then `write_data` with the byte at index `addr % size` of the buffer
(the index is inside the buffer whenever the buffer has `size > 0` bytes). -/
def cycleCalls (buf : List Nat) (size addr : Nat) : List Call :=
  latchCalls addr ++ [Call.write_data (buf.getD (addr % size) 0)]

/-- Number of port calls made by the iterations before `addr`: two per
iteration, and one more for every multiple of 256 below `addr`. -/
def callsBefore (addr : Nat) : Nat := 2 * addr + (addr + 255) / 256

/-- The kind of a port call, its argument forgotten. -/
inductive Kind where
  | wdata
  | enable
  | high
  | low
  | data
  | disable
  deriving DecidableEq, Repr

/-- The kind of a call. -/
def Call.kind : Call → Kind
  | Call.pp_wdata _ => Kind.wdata
  | Call.program_enable => Kind.enable
  | Call.write_address_high _ => Kind.high
  | Call.write_address_low _ => Kind.low
  | Call.write_data _ => Kind.data
  | Call.program_disable => Kind.disable

/-- The calls the loop of `main` made: the log of a transfer without the two
calls before the loop and without the final `program_disable`. -/
def loopCalls (buf : List Nat) (size : Nat) : List Call :=
  (transferLoop buf size 0 #[]).1.toList

/-! ## Notions used by the statements on traces -/

/-- The values written to the control register by a trace, in order. -/
def controlWrites (t : List RegWrite) : List Nat :=
  t.filterMap fun w =>
    match w with
    | RegWrite.wcontrol v => some v
    | RegWrite.wdata _ => none

/-- The values written to the data register by a trace, in order. -/
def dataWrites (t : List RegWrite) : List Nat :=
  t.filterMap fun w =>
    match w with
    | RegWrite.wdata v => some v
    | RegWrite.wcontrol _ => none

/-- The bytes passed to `write_data` by a list of calls, in order. -/
def strobedBytes (calls : List Call) : List Nat :=
  calls.filterMap fun x =>
    match x with
    | Call.write_data b => some b
    | _ => none

/-- A call with the byte of a data strobe forgotten: `write_data b` becomes
`write_data 0`, every other call is kept. -/
def Call.blankData : Call → Call
  | Call.write_data _ => Call.write_data 0
  | x => x

/-- Two register writes go to the same register and, when it is the control
register, carry the same value. -/
def RegWrite.sameUpToData : RegWrite → RegWrite → Prop
  | RegWrite.wdata _, RegWrite.wdata _ => True
  | RegWrite.wcontrol a, RegWrite.wcontrol b => a = b
  | _, _ => False

/-- The control lines with the roles of the two latch-enable lines exchanged. -/
def ControlBits.swapLatches (c : ControlBits) : ControlBits :=
  { BIT_ADDRESS_LOW_INVERTED := c.BIT_ADDRESS_HIGH_INVERTED
    BIT_ADDRESS_HIGH_INVERTED := c.BIT_ADDRESS_LOW_INVERTED
    BIT_DATA := c.BIT_DATA
    BIT_PROGRAM := c.BIT_PROGRAM }

/-- Scan of a list of control values that follows the value `prev`: every value
that asserts the data strobe comes directly after the idle value and is
directly followed by it. -/
def PulsesClean (c : ControlBits) : Nat → List Nat → Prop
  | _, [] => True
  | prev, v :: rest =>
    (asserted c.BIT_DATA v → prev = idle c ∧ rest.head? = some (idle c)) ∧
      PulsesClean c v rest

/-- Scan of a trace with the control register holding `cur` (`none` before the
first control write): every data-register write happens while the control
register holds the idle value, or before any control write. -/
def DataWhileIdle (c : ControlBits) : Option Nat → List RegWrite → Prop
  | _, [] => True
  | cur, RegWrite.wdata _ :: rest =>
    (cur = none ∨ cur = some (idle c)) ∧ DataWhileIdle c cur rest
  | _, RegWrite.wcontrol v :: rest => DataWhileIdle c (some v) rest

/-! ## The transfer loop in closed form -/

theorem fetch_eq_some (buf : List Nat) (size addr : Nat) (hs : 0 < size)
    (hb : buf.length = size) : fetch buf size addr = some (buf.getD (addr % size) 0) := by
  have hlt : addr % size < buf.length := by rw [hb]; exact Nat.mod_lt addr hs
  simp [fetch, Nat.pos_iff_ne_zero.mp hs, List.getD, List.getElem?_eq_getElem hlt]

theorem transferLoop_eq_aux (buf : List Nat) (size : Nat) (hs : 0 < size)
    (hb : buf.length = size) :
    ∀ (n addr : Nat) (log : Array Call), addr + n = 65536 →
      transferLoop buf size addr log =
        (log ++ (List.range' addr n).flatMap (cycleCalls buf size), true) := by
  intro n
  induction n with
  | zero =>
    intro addr log h
    rw [transferLoop]
    simp [show ¬ addr < 65536 by omega]
  | succ n ih =>
    intro addr log h
    rw [transferLoop]
    have hlt : addr < 65536 := by omega
    simp only [hlt, if_true, fetch_eq_some buf size addr hs hb]
    rw [ih (addr + 1) _ (by omega)]
    congr 1
    apply Array.ext'
    simp [List.range'_succ, cycleCalls]

theorem transferLoop_eq (buf : List Nat) (size : Nat) (hs : 0 < size)
    (hb : buf.length = size) (log : Array Call) :
    transferLoop buf size 0 log =
      (log ++ (List.range 65536).flatMap (cycleCalls buf size), true) := by
  rw [List.range_eq_range']
  exact transferLoop_eq_aux buf size hs hb 65536 0 log (Nat.zero_add 65536)

theorem toList_empty_appendList (l : List Call) : ((#[] : Array Call) ++ l).toList = l := by
  simp

theorem toList_bracket (l : List Call) :
    (((#[Call.pp_wdata 0].push Call.program_enable) ++ l).push Call.program_disable).toList =
      Call.pp_wdata 0 :: Call.program_enable :: (l ++ [Call.program_disable]) := by
  simp

theorem loopCalls_eq (buf : List Nat) (size : Nat) (hs : 0 < size)
    (hb : buf.length = size) :
    loopCalls buf size = (List.range 65536).flatMap (cycleCalls buf size) := by
  unfold loopCalls
  rw [transferLoop_eq buf size hs hb]
  exact toList_empty_appendList _

theorem transfer_eq (buf : List Nat) (size : Nat) (hs : 0 < size)
    (hb : buf.length = size) :
    transfer buf size =
      (Call.pp_wdata 0 :: Call.program_enable ::
        (loopCalls buf size ++ [Call.program_disable]), true) := by
  rw [loopCalls_eq buf size hs hb]
  unfold transfer
  simp only [transferLoop_eq buf size hs hb, if_true]
  rw [toList_bracket]

/-! ## Bytes of an address -/

theorem and_255 (addr : Nat) : addr &&& 255 = addr % 256 :=
  Nat.and_pow_two_sub_one_eq_mod addr 8

theorem shift_and_255 (addr : Nat) (h : addr < 65536) : (addr >>> 8) &&& 255 = addr / 256 := by
  rw [and_255, Nat.shiftRight_eq_div_pow]
  have : addr / 2 ^ 8 = addr / 256 := rfl
  omega

theorem latchCalls_eq (addr : Nat) :
    latchCalls addr =
      (if addr % 256 = 0 then [Call.write_address_high ((addr >>> 8) &&& 255)] else []) ++
        [Call.write_address_low (addr &&& 255)] := by
  unfold latchCalls
  rw [and_255]

/-! ## Shape and length of the call sequence -/

/-- The kinds of the calls of one iteration. -/
theorem cycleCalls_kinds (buf : List Nat) (size addr : Nat) :
    (cycleCalls buf size addr).map Call.kind =
      if addr % 256 = 0 then [Kind.high, Kind.low, Kind.data] else [Kind.low, Kind.data] := by
  unfold cycleCalls
  rw [latchCalls_eq]
  by_cases h : addr % 256 = 0 <;> simp [h, Call.kind]

theorem cycleCalls_length (buf : List Nat) (size addr : Nat) :
    (cycleCalls buf size addr).length = if addr % 256 = 0 then 3 else 2 := by
  have h := congrArg List.length (cycleCalls_kinds buf size addr)
  rw [List.length_map] at h
  rw [h]
  by_cases h0 : addr % 256 = 0 <;> simp [h0]

theorem flatMap_range_succ {α : Type} (f : Nat → List α) (n : Nat) :
    (List.range (n + 1)).flatMap f = (List.range n).flatMap f ++ f n := by
  rw [List.range_succ, List.flatMap_append, List.flatMap_singleton]

theorem kinds_flatMap (buf : List Nat) (size n : Nat) :
    ((List.range n).flatMap (cycleCalls buf size)).map Call.kind =
      (List.range n).flatMap fun addr =>
        if addr % 256 = 0 then [Kind.high, Kind.low, Kind.data] else [Kind.low, Kind.data] := by
  rw [List.map_flatMap]
  congr 1
  funext addr
  exact cycleCalls_kinds buf size addr

theorem count_kinds (n : Nat) :
    let ks := (List.range n).flatMap fun addr =>
      if addr % 256 = 0 then [Kind.high, Kind.low, Kind.data] else [Kind.low, Kind.data]
    ks.count Kind.data = n ∧ ks.count Kind.low = n ∧ ks.count Kind.high = (n + 255) / 256 ∧
      ks.length = callsBefore n := by
  induction n with
  | zero => simp [callsBefore]
  | succ n ih =>
    intro ks
    obtain ⟨h1, h2, h3, h4⟩ := ih
    simp only [ks, flatMap_range_succ, List.count_append, List.length_append, h1, h2, h3, h4]
    unfold callsBefore
    have c1 : List.count Kind.data [Kind.high, Kind.low, Kind.data] = 1 := by decide
    have c2 : List.count Kind.low [Kind.high, Kind.low, Kind.data] = 1 := by decide
    have c3 : List.count Kind.high [Kind.high, Kind.low, Kind.data] = 1 := by decide
    have c4 : List.count Kind.data [Kind.low, Kind.data] = 1 := by decide
    have c5 : List.count Kind.low [Kind.low, Kind.data] = 1 := by decide
    have c6 : List.count Kind.high [Kind.low, Kind.data] = 0 := by decide
    by_cases h : n % 256 = 0
    · simp only [h, if_true, c1, c2, c3, List.length_cons, List.length_nil]
      refine ⟨trivial, trivial, ?_, ?_⟩ <;> omega
    · simp only [h, if_false, c4, c5, c6, List.length_cons, List.length_nil]
      refine ⟨trivial, trivial, ?_, ?_⟩ <;> omega

theorem range_split (n addr : Nat) (h : addr < n) :
    List.range n = List.range addr ++ addr :: List.range' (addr + 1) (n - addr - 1) := by
  have e : n = (n - addr - 1 + 1) + addr := by omega
  rw [List.range_eq_range', List.range_eq_range']
  conv_lhs => rw [e]
  rw [← List.range'_append_1, List.range'_succ]
  simp

theorem flatMap_range_split {α : Type} (f : Nat → List α) (n addr : Nat) (h : addr < n) :
    (List.range n).flatMap f =
      (List.range addr).flatMap f ++ f addr ++
        (List.range' (addr + 1) (n - addr - 1)).flatMap f := by
  rw [range_split n addr h, List.flatMap_append, List.flatMap_cons, List.append_assoc]

theorem prefix_facts (buf : List Nat) (size n : Nat) :
    ((List.range n).flatMap (cycleCalls buf size)).length = callsBefore n ∧
      (((List.range n).flatMap (cycleCalls buf size)).map Call.kind).count Kind.data = n := by
  have h := count_kinds n
  simp only at h
  rw [kinds_flatMap]
  refine ⟨?_, h.1⟩
  rw [← h.2.2.2, ← kinds_flatMap buf size n, List.length_map]

/-! ## C2: the calls of the transfer loop -/

/-- C2: for a buffer of `size > 0` bytes the transfer performed by `main` is
`pp_wdata(0)`, `program_enable`, the calls of the loop and `program_disable`.
The calls of the loop are, address by address for `addr = 0 .. 65535`, a
`write_address_high` exactly when `addr % 256 = 0`, then one
`write_address_low`, then one `write_data`: 65536 `write_data` calls, 65536
`write_address_low` calls and 256 `write_address_high` calls, the latter in the
cycles `addr = 256 * k`, `k < 256`. -/
theorem transfer_loop_calls (buf : List Nat) (size : Nat) (hs : 0 < size)
    (hb : buf.length = size) :
    transfer buf size =
        (Call.pp_wdata 0 :: Call.program_enable ::
          (loopCalls buf size ++ [Call.program_disable]), true) ∧
      (loopCalls buf size).map Call.kind =
        ((List.range 65536).flatMap fun addr =>
          if addr % 256 = 0 then [Kind.high, Kind.low, Kind.data]
          else [Kind.low, Kind.data]) ∧
      ((loopCalls buf size).map Call.kind).count Kind.data = 65536 ∧
      ((loopCalls buf size).map Call.kind).count Kind.low = 65536 ∧
      ((loopCalls buf size).map Call.kind).count Kind.high = 256 ∧
      ∀ addr, addr < 65536 → (addr % 256 = 0 ↔ ∃ k, k < 256 ∧ addr = 256 * k) := by
  have hc := count_kinds 65536
  simp only at hc
  refine ⟨transfer_eq buf size hs hb, ?_, ?_, ?_, ?_, ?_⟩
  · rw [loopCalls_eq buf size hs hb]; exact kinds_flatMap buf size 65536
  · rw [loopCalls_eq buf size hs hb, kinds_flatMap]; exact hc.1
  · rw [loopCalls_eq buf size hs hb, kinds_flatMap]; exact hc.2.1
  · rw [loopCalls_eq buf size hs hb, kinds_flatMap]; exact hc.2.2.1
  · intro addr h
    constructor
    · intro h0; exact ⟨addr / 256, by omega, by omega⟩
    · rintro ⟨k, _, rfl⟩; omega

/-- C2 at the three-byte buffer `[1, 2, 3]`. -/
theorem transfer_loop_calls_witness :
    0 < 3 ∧ [1, 2, 3].length = 3 ∧
      ((loopCalls [1, 2, 3] 3).map Call.kind).count Kind.data = 65536 ∧
      ((loopCalls [1, 2, 3] 3).map Call.kind).count Kind.low = 65536 ∧
      ((loopCalls [1, 2, 3] 3).map Call.kind).count Kind.high = 256 :=
  ⟨by decide, rfl,
    (transfer_loop_calls [1, 2, 3] 3 (by decide) rfl).2.2.1,
    (transfer_loop_calls [1, 2, 3] 3 (by decide) rfl).2.2.2.1,
    (transfer_loop_calls [1, 2, 3] 3 (by decide) rfl).2.2.2.2.1⟩

/-! ## C3: the bytes of every cycle -/

/-- C3: for a buffer of `size > 0` bytes and every `addr < 65536`, the calls of
the loop are the calls of the earlier cycles (`callsBefore addr` calls, of which
`addr` are `write_data`), then the calls of cycle `addr`, then the later ones.
Cycle `addr` passes `(addr >> 8) & 0xFF` to `write_address_high` (made when
`addr % 256 = 0`), `addr & 0xFF` to `write_address_low` and
`buf[addr % size]` to `write_data`; the two address bytes are `addr / 256` and
`addr % 256`. -/
theorem cycle_bytes (buf : List Nat) (size : Nat) (hs : 0 < size) (hb : buf.length = size)
    (addr : Nat) (h : addr < 65536) :
    (∃ pre post,
        loopCalls buf size =
          pre ++
            ((if addr % 256 = 0 then [Call.write_address_high ((addr >>> 8) &&& 0xFF)] else []) ++
              [Call.write_address_low (addr &&& 0xFF),
                Call.write_data (buf.getD (addr % size) 0)]) ++
            post ∧
        pre.length = callsBefore addr ∧
        (pre.map Call.kind).count Kind.data = addr) ∧
      addr % size < buf.length ∧
      (addr >>> 8) &&& 0xFF = addr / 256 ∧ addr &&& 0xFF = addr % 256 := by
  refine ⟨⟨(List.range addr).flatMap (cycleCalls buf size),
      (List.range' (addr + 1) (65536 - addr - 1)).flatMap (cycleCalls buf size), ?_,
      (prefix_facts buf size addr).1, (prefix_facts buf size addr).2⟩, ?_,
    shift_and_255 addr h, and_255 addr⟩
  · rw [loopCalls_eq buf size hs hb, flatMap_range_split _ 65536 addr h]
    unfold cycleCalls
    rw [latchCalls_eq]
    simp
  · rw [hb]; exact Nat.mod_lt addr hs

/-- C3 at address 513 of the three-byte buffer `[1, 2, 3]`: the cycle is the
low latch of `513 & 0xFF` followed by the strobe of `[1, 2, 3][513 % 3]`. -/
theorem cycle_bytes_witness :
    0 < 3 ∧ [1, 2, 3].length = 3 ∧ 513 < 65536 ∧
      (∃ pre post,
        loopCalls [1, 2, 3] 3 =
          pre ++
            ((if 513 % 256 = 0 then [Call.write_address_high ((513 >>> 8) &&& 0xFF)] else []) ++
              [Call.write_address_low (513 &&& 0xFF),
                Call.write_data ([1, 2, 3].getD (513 % 3) 0)]) ++
            post ∧
        pre.length = callsBefore 513 ∧
        (pre.map Call.kind).count Kind.data = 513) ∧
      (513 >>> 8) &&& 0xFF = 513 / 256 ∧ 513 &&& 0xFF = 513 % 256 :=
  ⟨by decide, rfl, by decide,
    (cycle_bytes [1, 2, 3] 3 (by decide) rfl 513 (by decide)).1,
    (cycle_bytes [1, 2, 3] 3 (by decide) rfl 513 (by decide)).2.2.1,
    (cycle_bytes [1, 2, 3] 3 (by decide) rfl 513 (by decide)).2.2.2⟩

/-! ## C4-C7: the size option -/

/-- C4: the size argument `5` is not a power of two, yet the condition of line
134 does not reject it (`5 & (5 >> 1) = 0`), and the option loop goes on with
the size `5 * 1024 = 5120`. -/
theorem size_five_accepted :
    (∀ k : Nat, 2 ^ k ≠ 5) ∧ 0 < 5 ∧ 5 ≤ 65536 ∧
      (∀ (U : Nat) (errno : Int), UINT32_MAX ≤ U → sizeInvalid U ⟨5, errno, 0⟩ = false) ∧
      optionLoop 18446744073709551615 [Opt.size ⟨5, 0, 0⟩] DEFAULT_SIZE = Except.ok 5120 := by
  refine ⟨?_, by decide, by decide, ?_, rfl⟩
  · intro k hk
    have h3 : k < 3 := by
      by_contra hge
      have : 2 ^ 3 ≤ 2 ^ k := Nat.pow_le_pow_right (by decide) (by omega)
      omega
    interval_cases k <;> omega
  · intro U errno hU
    have hU' : 4294967295 ≤ U := hU
    have h1 : ((5 : Nat) == U) = false := by
      rw [beq_eq_false_iff_ne]; omega
    have h2 : (5 : Nat) &&& 2 = 0 := by decide
    simp [sizeInvalid, h1, UINT32_MAX, h2]

theorem pow_two_and_shift (k : Nat) : (2 ^ k) &&& ((2 ^ k) >>> 1) = 0 := by
  apply Nat.eq_of_testBit_eq
  intro i
  simp only [Nat.testBit_and, Nat.testBit_shiftRight, Nat.testBit_two_pow, Nat.zero_testBit]
  by_cases h1 : k = i
  · have h2 : ¬ k = 1 + i := by omega
    simp [h1, h2]
  · simp [h1]

/-- C5: for every `k ≤ 16`, the result of `strtoul` on the decimal numeral of
`2 ^ k` (value `2 ^ k`, the whole argument consumed, `errno` whatever it was)
makes none of the disjuncts of the rejection condition true, on every platform
whose `ULONG_MAX` is at least `UINT32_MAX`; the option loop goes on. -/
theorem power_of_two_accepted (k : Nat) (hk : k ≤ 16) (U : Nat) (hU : UINT32_MAX ≤ U)
    (errno : Int) :
    sizeInvalid U ⟨2 ^ k, errno, 0⟩ = false ∧
      ∀ rest size, optionLoop U (Opt.size ⟨2 ^ k, errno, 0⟩ :: rest) size =
        optionLoop U rest (effectiveSize (2 ^ k)) := by
  have hle : 2 ^ k ≤ 65536 := by
    have : 2 ^ k ≤ 2 ^ 16 := Nat.pow_le_pow_right (by decide) hk
    simpa using this
  have hpos : 0 < 2 ^ k := Nat.two_pow_pos k
  have hU' : 4294967295 ≤ U := hU
  have h : sizeInvalid U ⟨2 ^ k, errno, 0⟩ = false := by
    have h1 : ((2 ^ k : Nat) == U) = false := by
      rw [beq_eq_false_iff_ne]; omega
    have h2 : ((2 ^ k : Nat) == 0) = false := by
      rw [beq_eq_false_iff_ne]; omega
    have h3 : decide (2 ^ k > UINT32_MAX) = false := by
      rw [decide_eq_false_iff_not]; unfold UINT32_MAX; omega
    have h4 : decide (2 ^ k > 65536) = false := by
      rw [decide_eq_false_iff_not]; omega
    simp [sizeInvalid, h1, h2, h3, h4, pow_two_and_shift]
  refine ⟨h, ?_⟩
  intro rest size
  simp [optionLoop, h]

/-- C5 at `k = 16`, the size 65536, on a 64-bit platform. -/
theorem power_of_two_accepted_witness :
    16 ≤ 16 ∧ UINT32_MAX ≤ 18446744073709551615 ∧
      sizeInvalid 18446744073709551615 ⟨2 ^ 16, 0, 0⟩ = false :=
  ⟨by decide, by decide,
    (power_of_two_accepted 16 (by decide) 18446744073709551615 (by decide) 0).1⟩

theorem optionLoop_reject (U : Nat) (r : Strtoul) (hr : sizeInvalid U r = true)
    (pre rest : List Opt)
    (hpre : ∀ o ∈ pre, o = Opt.port ∨ ∃ r', o = Opt.size r' ∧ sizeInvalid U r' = false) :
    ∀ size, optionLoop U (pre ++ Opt.size r :: rest) size = Except.error 1 := by
  induction pre with
  | nil => intro size; simp [optionLoop, hr]
  | cons o pre ih =>
    intro size
    have ih' := ih (fun o ho => hpre o (List.mem_cons_of_mem _ ho))
    rcases hpre o (List.mem_cons_self _ _) with h | ⟨r', h, hr'⟩
    · subst h; simpa [optionLoop] using ih' size
    · subst h; simpa [optionLoop, hr'] using ih' _

theorem main_of_optionLoop_error (env : Env) (st : Nat)
    (h : optionLoop env.ULONG_MAX env.opts DEFAULT_SIZE = Except.error st) :
    main env = ⟨[], some st⟩ := by
  simp [main, h]

theorem main_of_transfer (env : Env) (size : Nat) (delivered : List Nat)
    (h : optionLoop env.ULONG_MAX env.opts DEFAULT_SIZE = Except.ok size)
    (hf : env.hasFilename = true) (ho : env.openOk = true)
    (hr : env.readData = some delivered) (hp : env.ppOpenOk = true) :
    main env =
      if (transfer (fillBuffer size delivered) size).2 then
        ⟨[Effect.fileOpen, Effect.fileRead, Effect.ppOpen] ++
          (transfer (fillBuffer size delivered) size).1.map Effect.port ++ [Effect.ppClose],
          some 0⟩
      else
        ⟨[Effect.fileOpen, Effect.fileRead, Effect.ppOpen] ++
          (transfer (fillBuffer size delivered) size).1.map Effect.port, none⟩ := by
  simp [main, h, hf, ho, hr, hp]

/-- C6: whenever the value returned by `strtoul` is greater than 65536, or is
`ULONG_MAX` with `errno = ERANGE` (the overflow report), or characters are left
after the numeric prefix (`*endptr` is not 0), the rejection condition of line
134 is true; then the option loop ends in `exit(1)` when it reaches that
argument (after any options it did not stop at), and `main` exits with status 1
having done nothing. -/
theorem oversize_or_trailing_rejected (U : Nat) (hU : UINT32_MAX ≤ U) (r : Strtoul)
    (h : r.tmp > 65536 ∨ (r.tmp = U ∧ r.errno = ERANGE) ∨ r.endChar ≠ 0) :
    sizeInvalid U r = true ∧
      ∀ (env : Env) (pre rest : List Opt), env.ULONG_MAX = U →
        (∀ o ∈ pre, o = Opt.port ∨ ∃ r', o = Opt.size r' ∧ sizeInvalid U r' = false) →
        env.opts = pre ++ Opt.size r :: rest → main env = ⟨[], some 1⟩ := by
  have hU' : 4294967295 ≤ U := hU
  have hr : sizeInvalid U r = true := by
    rcases h with h | ⟨h1, h2⟩ | h
    · have : decide (r.tmp > 65536) = true := decide_eq_true h
      simp [sizeInvalid, this]
    · have : decide (r.tmp > 65536) = true := decide_eq_true (by omega)
      simp [sizeInvalid, this]
    · simp [sizeInvalid, h]
  refine ⟨hr, ?_⟩
  intro env pre rest hu hpre hopts
  apply main_of_optionLoop_error
  rw [hu, hopts]
  exact optionLoop_reject U r hr pre rest hpre _

/-- C6 at the argument `65537` on a 64-bit platform. -/
theorem oversize_or_trailing_rejected_witness :
    UINT32_MAX ≤ 18446744073709551615 ∧ (65537 : Nat) > 65536 ∧
      sizeInvalid 18446744073709551615 ⟨65537, 0, 0⟩ = true :=
  ⟨by decide, by decide,
    (oversize_or_trailing_rejected 18446744073709551615 (by decide) ⟨65537, 0, 0⟩
      (Or.inl (by decide))).1⟩

theorem le_of_not_sizeInvalid (U : Nat) (r : Strtoul) (h : sizeInvalid U r = false) :
    r.tmp ≤ 65536 := by
  by_contra hgt
  have : decide (r.tmp > 65536) = true := decide_eq_true (by omega)
  simp [sizeInvalid, this] at h

theorem effectiveSize_eq (n : Nat) (h : n ≤ 65536) :
    effectiveSize n = if n ≤ 64 then n * 1024 else n := by
  unfold effectiveSize
  have h1 : n % 2 ^ 32 = n := Nat.mod_eq_of_lt (by norm_num; omega)
  simp only [h1]
  split
  · exact Nat.mod_eq_of_lt (by norm_num; omega)
  · rfl

theorem filterMap_port (l : List Call) :
    (l.map Effect.port).filterMap (fun e =>
      match e with
      | Effect.port call => some call
      | _ => none) = l := by
  induction l with
  | nil => rfl
  | cons x l ih => simp [List.filterMap_cons, ih]

theorem main_portCalls (env : Env) (size : Nat) (delivered : List Nat)
    (h : optionLoop env.ULONG_MAX env.opts DEFAULT_SIZE = Except.ok size)
    (hf : env.hasFilename = true) (ho : env.openOk = true)
    (hr : env.readData = some delivered) (hp : env.ppOpenOk = true) :
    (main env).portCalls = (transfer (fillBuffer size delivered) size).1 := by
  rw [main_of_transfer env size delivered h hf ho hr hp]
  unfold Run.portCalls
  split
  · simp only [List.filterMap_append, filterMap_port]
    simp [List.filterMap_cons]
  · simp only [List.filterMap_append, filterMap_port]
    simp [List.filterMap_cons]

/-- C7: for every accepted size argument with parsed value `n`, the size the
option loop leaves for the rest of `main` is `n * 1024` when `n ≤ 64` and `n`
when `n > 64` (no wrap-around of the 32-bit `unsigned int` occurs), and it is
the size of the buffer `main` builds and transfers. -/
theorem effective_size (U : Nat) (r : Strtoul) (h : sizeInvalid U r = false) :
    effectiveSize r.tmp = (if r.tmp ≤ 64 then r.tmp * 1024 else r.tmp) ∧
      (∀ size, optionLoop U [Opt.size r] size =
        Except.ok (if r.tmp ≤ 64 then r.tmp * 1024 else r.tmp)) ∧
      ∀ (env : Env) (delivered : List Nat), env.ULONG_MAX = U → env.opts = [Opt.size r] →
        env.hasFilename = true → env.openOk = true → env.readData = some delivered →
        env.ppOpenOk = true →
        (main env).portCalls =
          (transfer (fillBuffer (if r.tmp ≤ 64 then r.tmp * 1024 else r.tmp) delivered)
            (if r.tmp ≤ 64 then r.tmp * 1024 else r.tmp)).1 := by
  have he := effectiveSize_eq r.tmp (le_of_not_sizeInvalid U r h)
  have hl : ∀ size, optionLoop U [Opt.size r] size =
      Except.ok (if r.tmp ≤ 64 then r.tmp * 1024 else r.tmp) := by
    intro size
    simp [optionLoop, h, he]
  refine ⟨he, hl, ?_⟩
  intro env delivered hu hopts hf ho hr hp
  exact main_portCalls env _ delivered (by rw [hu, hopts]; exact hl _) hf ho hr hp

/-- C7 at the argument `64`, on a 64-bit platform. -/
theorem effective_size_witness :
    sizeInvalid 18446744073709551615 ⟨64, 0, 0⟩ = false ∧ effectiveSize 64 = 65536 :=
  ⟨by decide, (effective_size 18446744073709551615 ⟨64, 0, 0⟩ (by decide)).1⟩

/-! ## C8: the source buffer -/

theorem fillBuffer_length (size : Nat) (delivered : List Nat) :
    (fillBuffer size delivered).length = size := by
  unfold fillBuffer
  simp only [List.length_append, List.length_drop, List.length_replicate, List.length_take]
  omega

theorem fillBuffer_eq (size : Nat) (file : List Nat) (h : file.length ≤ size) :
    fillBuffer size file = file ++ List.replicate (size - file.length) 0xFF := by
  unfold fillBuffer
  simp only [List.take_of_length_le h, List.drop_replicate]

/-- C8: for a file of `L ≤ s` bytes that the single `read` delivers whole, the
buffer `main` builds for the size `s` has `s` bytes: the bytes of the file in
order, followed by `s - L` bytes `0xFF`; it is the buffer the transfer of
`main` is run on. -/
theorem source_buffer (s : Nat) (file : List Nat) (h : file.length ≤ s) :
    (fillBuffer s file).length = s ∧
      (fillBuffer s file).take file.length = file ∧
      (fillBuffer s file).drop file.length = List.replicate (s - file.length) 0xFF ∧
      (∀ i, file.length ≤ i → i < s → (fillBuffer s file)[i]? = some 0xFF) ∧
      ∀ env : Env, optionLoop env.ULONG_MAX env.opts DEFAULT_SIZE = Except.ok s →
        env.hasFilename = true → env.openOk = true → env.readData = some file →
        env.ppOpenOk = true →
        (main env).portCalls =
          (transfer (file ++ List.replicate (s - file.length) 0xFF) s).1 := by
  refine ⟨fillBuffer_length s file, ?_, ?_, ?_, ?_⟩
  · rw [fillBuffer_eq s file h, List.take_left']
    rfl
  · rw [fillBuffer_eq s file h, List.drop_left']
    rfl
  · intro i h1 h2
    rw [fillBuffer_eq s file h, List.getElem?_append_right h1, List.getElem?_replicate]
    simp
    omega
  · intro env ho hf hop hr hp
    rw [← fillBuffer_eq s file h]
    exact main_portCalls env s file ho hf hop hr hp

/-- C8 at a two-byte file and the size 5. -/
theorem source_buffer_witness :
    [0x12, 0x34].length ≤ 5 ∧ fillBuffer 5 [0x12, 0x34] = [0x12, 0x34, 0xFF, 0xFF, 0xFF] ∧
      (fillBuffer 5 [0x12, 0x34]).length = 5 :=
  ⟨by decide, by decide, (source_buffer 5 [0x12, 0x34] (by decide)).1⟩

/-! ## Control values -/

theorem or_ne_zero_left {a : Nat} (b : Nat) (h : a ≠ 0) : a ||| b ≠ 0 := by
  obtain ⟨i, hi⟩ := Nat.ne_zero_implies_bit_true h
  intro h0
  have : (a ||| b).testBit i = true := by rw [Nat.testBit_or, hi]; rfl
  rw [h0, Nat.zero_testBit] at this
  exact Bool.noConfusion this

theorem asserted_or_left {m a : Nat} (b : Nat) (h : asserted m a) : asserted m (a ||| b) := by
  unfold asserted at *
  rw [Nat.and_distrib_right]
  exact or_ne_zero_left _ h

theorem asserted_or_right {m b : Nat} (a : Nat) (h : asserted m b) : asserted m (a ||| b) := by
  rw [Nat.or_comm]
  exact asserted_or_left a h

theorem asserted_self {m : Nat} (h : m ≠ 0) : asserted m m := by
  unfold asserted
  rw [Nat.and_self]
  exact h

theorem not_asserted_or {m a b : Nat} (ha : a &&& m = 0) (hb : b &&& m = 0) :
    ¬ asserted m (a ||| b) := by
  unfold asserted
  rw [Nat.and_distrib_right, ha, hb]
  simp

theorem or_and_eq_zero {m a b : Nat} (ha : a &&& m = 0) (hb : b &&& m = 0) :
    (a ||| b) &&& m = 0 := by
  rw [Nat.and_distrib_right, ha, hb]
  rfl

theorem asserted_program_idle (c : ControlBits) (hc : c.Independent) :
    asserted c.BIT_PROGRAM (idle c) :=
  asserted_or_left _ (asserted_or_left _ (asserted_self hc.2.2.2.1))

theorem not_asserted_program_disable (c : ControlBits) (hc : c.Independent) :
    ¬ asserted c.BIT_PROGRAM (c.BIT_ADDRESS_LOW_INVERTED ||| c.BIT_ADDRESS_HIGH_INVERTED) :=
  not_asserted_or hc.2.2.2.2.2.2.1 hc.2.2.2.2.2.2.2.2.1

/-! ## C9: the program-enable bracket -/

theorem mem_flatMap_cycle_kind (buf : List Nat) (size : Nat) (l : List Nat) (x : Call)
    (hx : x ∈ l.flatMap (cycleCalls buf size)) :
    x.kind = Kind.high ∨ x.kind = Kind.low ∨ x.kind = Kind.data := by
  rw [List.mem_flatMap] at hx
  obtain ⟨addr, _, hx⟩ := hx
  have hk : x.kind ∈ (cycleCalls buf size addr).map Call.kind := List.mem_map_of_mem _ hx
  rw [cycleCalls_kinds] at hk
  split at hk <;> simp at hk <;> tauto

theorem mem_loopCalls_kind (buf : List Nat) (size : Nat) (hs : 0 < size)
    (hb : buf.length = size) (x : Call) (hx : x ∈ loopCalls buf size) :
    x.kind = Kind.high ∨ x.kind = Kind.low ∨ x.kind = Kind.data := by
  rw [loopCalls_eq buf size hs hb] at hx
  exact mem_flatMap_cycle_kind buf size _ x hx

theorem program_asserted_of_kind (c : ControlBits) (hc : c.Independent) (x : Call) (v : Nat)
    (hk : x.kind = Kind.high ∨ x.kind = Kind.low ∨ x.kind = Kind.data)
    (hv : RegWrite.wcontrol v ∈ Call.regs c x) : asserted c.BIT_PROGRAM v := by
  have hP : asserted c.BIT_PROGRAM c.BIT_PROGRAM := asserted_self hc.2.2.2.1
  cases x with
  | pp_wdata b => simp [Call.kind] at hk
  | program_enable => simp [Call.kind] at hk
  | program_disable => simp [Call.kind] at hk
  | write_address_high b =>
    simp [Call.regs, write_address_high] at hv
    rcases hv with h | h <;> subst h
    · exact asserted_or_left _ hP
    · exact asserted_or_left _ (asserted_or_left _ hP)
  | write_address_low b =>
    simp [Call.regs, write_address_low] at hv
    rcases hv with h | h <;> subst h
    · exact asserted_or_left _ hP
    · exact asserted_or_left _ (asserted_or_left _ hP)
  | write_data b =>
    simp [Call.regs, write_data] at hv
    rcases hv with h | h <;> subst h
    · exact asserted_or_left _ (asserted_or_left _ (asserted_or_left _ hP))
    · exact asserted_or_left _ (asserted_or_left _ hP)

theorem regTrace_cons (c : ControlBits) (x : Call) (l : List Call) :
    regTrace c (x :: l) = Call.regs c x ++ regTrace c l := by
  simp [regTrace]

theorem regTrace_append (c : ControlBits) (l₁ l₂ : List Call) :
    regTrace c (l₁ ++ l₂) = regTrace c l₁ ++ regTrace c l₂ := by
  simp [regTrace]

/-- C9: in a complete transfer (buffer of `size > 0` bytes, independent control
lines) the calls are `pp_wdata(0)`, then `program_enable`, then only address
latches and data strobes, then `program_disable`: each of the two is performed
exactly once, the first before and the second after every latch and strobe.
The register trace is some writes followed by the single write of
`program_disable`, `ADDR_LOW_INV | ADDR_HIGH_INV`, which is its last write;
`PROGRAM` is asserted in every control write before it and not in it. -/
theorem program_bracket (c : ControlBits) (hc : c.Independent) (buf : List Nat) (size : Nat)
    (hs : 0 < size) (hb : buf.length = size) :
    (transfer buf size).2 = true ∧
      (∃ body, (transfer buf size).1 =
          Call.pp_wdata 0 :: Call.program_enable :: (body ++ [Call.program_disable]) ∧
        ∀ x ∈ body, x.kind = Kind.high ∨ x.kind = Kind.low ∨ x.kind = Kind.data) ∧
      ((transfer buf size).1.map Call.kind).count Kind.enable = 1 ∧
      ((transfer buf size).1.map Call.kind).count Kind.disable = 1 ∧
      (∃ init, regTrace c (transfer buf size).1 =
          init ++ [RegWrite.wcontrol
            (c.BIT_ADDRESS_LOW_INVERTED ||| c.BIT_ADDRESS_HIGH_INVERTED)] ∧
        ∀ v, RegWrite.wcontrol v ∈ init → asserted c.BIT_PROGRAM v) ∧
      ¬ asserted c.BIT_PROGRAM
        (c.BIT_ADDRESS_LOW_INVERTED ||| c.BIT_ADDRESS_HIGH_INVERTED) := by
  have hk := mem_loopCalls_kind buf size hs hb
  have hne : ∀ k, k ≠ Kind.high → k ≠ Kind.low → k ≠ Kind.data →
      List.count k ((loopCalls buf size).map Call.kind) = 0 := by
    intro k h1 h2 h3
    rw [List.count_eq_zero]
    intro hmem
    obtain ⟨x, hx, rfl⟩ := List.mem_map.mp hmem
    rcases hk x hx with h | h | h
    · exact h1 h
    · exact h2 h
    · exact h3 h
  rw [transfer_eq buf size hs hb]
  refine ⟨rfl, ⟨loopCalls buf size, rfl, hk⟩, ?_, ?_, ?_, not_asserted_program_disable c hc⟩
  · simp only [List.map_cons, List.map_append, List.map_nil, List.count_cons, List.count_append,
      hne Kind.enable (by decide) (by decide) (by decide), Call.kind]
    simp
  · simp only [List.map_cons, List.map_append, List.map_nil, List.count_cons, List.count_append,
      hne Kind.disable (by decide) (by decide) (by decide), Call.kind]
    simp
  · refine ⟨Call.regs c (Call.pp_wdata 0) ++ (Call.regs c Call.program_enable ++
      regTrace c (loopCalls buf size)), ?_, ?_⟩
    · rw [regTrace_cons, regTrace_cons, regTrace_append]
      simp [regTrace, Call.regs, program_disable]
    · intro v hv
      simp only [List.mem_append] at hv
      rcases hv with hv | hv | hv
      · simp [Call.regs] at hv
      · simp only [Call.regs, program_enable, List.mem_singleton, RegWrite.wcontrol.injEq] at hv
        subst hv
        exact asserted_program_idle c hc
      · unfold regTrace at hv
        rw [List.mem_flatMap] at hv
        obtain ⟨x, hx, hv⟩ := hv
        exact program_asserted_of_kind c hc x v (hk x hx) hv

/-- C9 at the three-byte buffer `[1, 2, 3]` with the lines of the PC port. -/
theorem program_bracket_witness :
    parport.Independent ∧ 0 < 3 ∧ [1, 2, 3].length = 3 ∧
      (transfer [1, 2, 3] 3).2 = true ∧
      ((transfer [1, 2, 3] 3).1.map Call.kind).count Kind.enable = 1 ∧
      ((transfer [1, 2, 3] 3).1.map Call.kind).count Kind.disable = 1 :=
  ⟨by decide, by decide, rfl,
    (program_bracket parport (by decide) [1, 2, 3] 3 (by decide) rfl).1,
    (program_bracket parport (by decide) [1, 2, 3] 3 (by decide) rfl).2.2.1,
    (program_bracket parport (by decide) [1, 2, 3] 3 (by decide) rfl).2.2.2.1⟩

/-! ## C10: exit status and port activity -/

theorem transferLoop_zero_size (buf : List Nat) (log : Array Call) :
    (transferLoop buf 0 0 log).2 = false := by
  rw [transferLoop]
  simp [fetch]

theorem transfer_completed_pos (buf : List Nat) (size : Nat)
    (h : (transfer buf size).2 = true) : 0 < size := by
  rcases Nat.eq_zero_or_pos size with h0 | h0
  · subst h0
    unfold transfer at h
    simp [transferLoop_zero_size] at h
  · exact h0

theorem sizeInvalid_100 (U : Nat) (errno : Int) : sizeInvalid U ⟨100, errno, 0⟩ = true := by
  have h : ((100 : Nat) &&& (100 >>> 1) != 0) = true := by decide
  simp only [sizeInvalid, h, Bool.or_true]

/-- C10: a run of `main` that ends with exit status 1 has made no port call,
hence no data-register or control-register write.  A run that ends with exit
status 0 has either done nothing at all (the `-h` option) or has emitted the
whole transfer: `pp_wdata(0)`, `program_enable`, the 65536 cycles of the loop,
`program_disable`, and then `pp_close`.  A run that meets the size
argument `100` (after options that did not stop the program) exits with status
1 before `open` and before `pp_open`.  When the options are accepted, a missing
file name, a failure of `open`, of `read` or of `pp_open` gives exit status 1. -/
theorem exit_status (env : Env) :
    ((main env).status = some 1 →
        (main env).portCalls = [] ∧ ∀ c, (main env).regWrites c = []) ∧
      ((main env).status = some 0 →
        (main env).effects = [] ∨
          ∃ size delivered, 0 < size ∧
            (main env).effects =
              [Effect.fileOpen, Effect.fileRead, Effect.ppOpen] ++
                (Call.pp_wdata 0 :: Call.program_enable ::
                  (loopCalls (fillBuffer size delivered) size ++
                    [Call.program_disable])).map Effect.port ++
                [Effect.ppClose]) ∧
      (∀ errno pre rest,
        (∀ o ∈ pre, o = Opt.port ∨
          ∃ r, o = Opt.size r ∧ sizeInvalid env.ULONG_MAX r = false) →
        env.opts = pre ++ Opt.size ⟨100, errno, 0⟩ :: rest →
        main env = ⟨[], some 1⟩) ∧
      ∀ size, optionLoop env.ULONG_MAX env.opts DEFAULT_SIZE = Except.ok size →
        env.hasFilename = false ∨ env.openOk = false ∨ env.readData = none ∨
          env.ppOpenOk = false →
        (main env).status = some 1 := by
  refine ⟨?_, ?_, ?_, ?_⟩
  · intro h
    have hp : (main env).portCalls = [] := by
      unfold main at h ⊢
      cases h1 : optionLoop env.ULONG_MAX env.opts DEFAULT_SIZE with
      | error st => simp [Run.portCalls]
      | ok size =>
        rw [h1] at h
        cases hf : env.hasFilename <;> cases ho : env.openOk <;>
          cases hr : env.readData <;> cases hpp : env.ppOpenOk <;>
          simp [hf, ho, hr, hpp, Run.portCalls] at h ⊢
        split at h <;> simp at h
    refine ⟨hp, ?_⟩
    intro c
    simp [Run.regWrites, hp, regTrace]
  · intro h
    cases h1 : optionLoop env.ULONG_MAX env.opts DEFAULT_SIZE with
    | error st => left; rw [main_of_optionLoop_error env st h1]
    | ok size =>
      cases hf : env.hasFilename <;> cases ho : env.openOk <;>
        cases hr : env.readData <;> cases hpp : env.ppOpenOk <;>
        first
          | (simp [main, h1, hf, ho, hr, hpp] at h; done)
          | skip
      rename_i delivered
      rw [main_of_transfer env size delivered h1 hf ho hr hpp] at h ⊢
      by_cases ht : (transfer (fillBuffer size delivered) size).2 = true
      · have hs := transfer_completed_pos _ _ ht
        right
        refine ⟨size, delivered, hs, ?_⟩
        rw [if_pos ht, transfer_eq _ size hs (fillBuffer_length size delivered)]
      · rw [if_neg ht] at h
        simp at h
  · intro errno pre rest hpre hopts
    apply main_of_optionLoop_error
    rw [hopts]
    exact optionLoop_reject _ _ (sizeInvalid_100 _ errno) pre rest hpre _
  · intro size h1 h
    cases hf : env.hasFilename <;> cases ho : env.openOk <;>
      cases hr : env.readData <;> cases hpp : env.ppOpenOk <;>
      simp [main, h1, hf, ho, hr, hpp] at h ⊢

/-- C10 at the command line `-s 100 FILE`: exit status 1, nothing done. -/
theorem exit_status_witness :
    (main ⟨18446744073709551615, [Opt.size ⟨100, 0, 0⟩], true, true, some [1, 2], true⟩).status
        = some 1 ∧
      (main ⟨18446744073709551615, [Opt.size ⟨100, 0, 0⟩], true, true, some [1, 2],
        true⟩).portCalls = [] :=
  ⟨by decide,
    ((exit_status ⟨18446744073709551615, [Opt.size ⟨100, 0, 0⟩], true, true, some [1, 2],
      true⟩).1 (by decide)).1⟩

/-! ## The hardware under the protocol functions -/

theorem Device.run_append (c : ControlBits) (d : Device) (t₁ t₂ : List RegWrite) :
    Device.run c d (t₁ ++ t₂) = Device.run c (Device.run c d t₁) t₂ := by
  simp [Device.run]

theorem getD_setD (m : Array Nat) (i a v : Nat) (hi : i < m.size) :
    (m.setD i v).getD a 0 = if a = i then v else m.getD a 0 := by
  by_cases h : a = i
  · subst h
    simp [Array.getD_eq_get?, hi]
  · have h' : i ≠ a := fun e => h e.symm
    simp [Array.getD_eq_get?, Array.setD, hi, h, Array.get?_set, h']

section Hardware

variable (c : ControlBits) (hc : c.Independent)

include hc

theorem low_in_idle : asserted c.BIT_ADDRESS_LOW_INVERTED
    (c.BIT_PROGRAM ||| c.BIT_ADDRESS_LOW_INVERTED ||| c.BIT_ADDRESS_HIGH_INVERTED) :=
  asserted_or_left _ (asserted_or_right _ (asserted_self hc.1))

theorem high_in_idle : asserted c.BIT_ADDRESS_HIGH_INVERTED
    (c.BIT_PROGRAM ||| c.BIT_ADDRESS_LOW_INVERTED ||| c.BIT_ADDRESS_HIGH_INVERTED) :=
  asserted_or_right _ (asserted_self hc.2.1)

theorem data_not_in_idle : ¬ asserted c.BIT_DATA
    (c.BIT_PROGRAM ||| c.BIT_ADDRESS_LOW_INVERTED ||| c.BIT_ADDRESS_HIGH_INVERTED) := by
  obtain ⟨_, _, _, _, _, hLD, _, hHD, _, hDP⟩ := hc
  rw [Nat.and_comm] at hDP
  exact not_asserted_or (or_and_eq_zero hDP hLD) hHD

theorem low_open : ¬ asserted c.BIT_ADDRESS_LOW_INVERTED
    (c.BIT_PROGRAM ||| c.BIT_ADDRESS_HIGH_INVERTED) := by
  obtain ⟨_, _, _, _, hLH, _, hLP, _, _, _⟩ := hc
  rw [Nat.and_comm] at hLH hLP
  exact not_asserted_or hLP hLH

theorem low_open_high : asserted c.BIT_ADDRESS_HIGH_INVERTED
    (c.BIT_PROGRAM ||| c.BIT_ADDRESS_HIGH_INVERTED) :=
  asserted_or_right _ (asserted_self hc.2.1)

theorem low_open_data : ¬ asserted c.BIT_DATA
    (c.BIT_PROGRAM ||| c.BIT_ADDRESS_HIGH_INVERTED) := by
  obtain ⟨_, _, _, _, _, _, _, hHD, _, hDP⟩ := hc
  rw [Nat.and_comm] at hDP
  exact not_asserted_or hDP hHD

theorem high_open : ¬ asserted c.BIT_ADDRESS_HIGH_INVERTED
    (c.BIT_PROGRAM ||| c.BIT_ADDRESS_LOW_INVERTED) := by
  obtain ⟨_, _, _, _, hLH, _, _, _, hHP, _⟩ := hc
  rw [Nat.and_comm] at hHP
  exact not_asserted_or hHP hLH

theorem high_open_low : asserted c.BIT_ADDRESS_LOW_INVERTED
    (c.BIT_PROGRAM ||| c.BIT_ADDRESS_LOW_INVERTED) :=
  asserted_or_right _ (asserted_self hc.1)

theorem high_open_data : ¬ asserted c.BIT_DATA
    (c.BIT_PROGRAM ||| c.BIT_ADDRESS_LOW_INVERTED) := by
  obtain ⟨_, _, _, _, _, hLD, _, _, _, hDP⟩ := hc
  rw [Nat.and_comm] at hDP
  exact not_asserted_or hDP hLD

theorem strobe_data : asserted c.BIT_DATA
    (c.BIT_PROGRAM ||| c.BIT_ADDRESS_LOW_INVERTED ||| c.BIT_ADDRESS_HIGH_INVERTED |||
      c.BIT_DATA) :=
  asserted_or_right _ (asserted_self hc.2.2.1)

theorem strobe_low : asserted c.BIT_ADDRESS_LOW_INVERTED
    (c.BIT_PROGRAM ||| c.BIT_ADDRESS_LOW_INVERTED ||| c.BIT_ADDRESS_HIGH_INVERTED |||
      c.BIT_DATA) :=
  asserted_or_left _ (low_in_idle c hc)

theorem strobe_high : asserted c.BIT_ADDRESS_HIGH_INVERTED
    (c.BIT_PROGRAM ||| c.BIT_ADDRESS_LOW_INVERTED ||| c.BIT_ADDRESS_HIGH_INVERTED |||
      c.BIT_DATA) :=
  asserted_or_left _ (high_in_idle c hc)

theorem disable_data : ¬ asserted c.BIT_DATA
    (c.BIT_ADDRESS_LOW_INVERTED ||| c.BIT_ADDRESS_HIGH_INVERTED) :=
  not_asserted_or hc.2.2.2.2.2.1 hc.2.2.2.2.2.2.2.1

theorem run_write_address_low (d : Device) (b : Nat)
    (hd : d.control =
      c.BIT_PROGRAM ||| c.BIT_ADDRESS_LOW_INVERTED ||| c.BIT_ADDRESS_HIGH_INVERTED) :
    Device.run c d (write_address_low c b) =
      { data := b % 256, control := d.control, latchLow := b % 256,
        latchHigh := d.latchHigh, mem := d.mem, stores := d.stores } := by
  simp [Device.run, write_address_low, Device.step, hd, low_in_idle c hc, high_in_idle c hc,
    data_not_in_idle c hc, low_open c hc, low_open_high c hc, low_open_data c hc]

theorem run_write_address_high (d : Device) (b : Nat)
    (hd : d.control =
      c.BIT_PROGRAM ||| c.BIT_ADDRESS_LOW_INVERTED ||| c.BIT_ADDRESS_HIGH_INVERTED) :
    Device.run c d (write_address_high c b) =
      { data := b % 256, control := d.control, latchLow := d.latchLow,
        latchHigh := b % 256, mem := d.mem, stores := d.stores } := by
  simp [Device.run, write_address_high, Device.step, hd, low_in_idle c hc, high_in_idle c hc,
    data_not_in_idle c hc, high_open c hc, high_open_low c hc, high_open_data c hc]

theorem run_write_data (d : Device) (b : Nat)
    (hd : d.control =
      c.BIT_PROGRAM ||| c.BIT_ADDRESS_LOW_INVERTED ||| c.BIT_ADDRESS_HIGH_INVERTED) :
    Device.run c d (write_data c b) =
      { data := b % 256, control := d.control, latchLow := d.latchLow,
        latchHigh := d.latchHigh,
        mem := d.mem.setD (d.latchHigh <<< 8 ||| d.latchLow) (b % 256),
        stores := d.stores.push (d.latchHigh, d.latchLow, b % 256) } := by
  simp [Device.run, write_data, Device.step, hd, low_in_idle c hc, high_in_idle c hc,
    data_not_in_idle c hc, strobe_data c hc, strobe_low c hc, strobe_high c hc]

theorem run_cycle (d : Device) (buf : List Nat) (size addr : Nat) (h : addr < 65536)
    (hd : d.control =
      c.BIT_PROGRAM ||| c.BIT_ADDRESS_LOW_INVERTED ||| c.BIT_ADDRESS_HIGH_INVERTED)
    (hh : addr % 256 ≠ 0 → d.latchHigh = addr / 256) :
    Device.run c d (regTrace c (cycleCalls buf size addr)) =
      { data := buf.getD (addr % size) 0 % 256, control := d.control,
        latchLow := addr % 256, latchHigh := addr / 256,
        mem := d.mem.setD addr (buf.getD (addr % size) 0 % 256),
        stores := d.stores.push (addr / 256, addr % 256, buf.getD (addr % size) 0 % 256) } := by
  have e1 : (addr >>> 8 &&& 255) % 256 = addr / 256 := by
    rw [shift_and_255 addr h]; omega
  have e2 : (addr &&& 255) % 256 = addr % 256 := by
    rw [and_255]; omega
  have e3 : (addr / 256) <<< 8 ||| addr % 256 = addr := by
    rw [Nat.shiftLeft_eq, Nat.mul_comm,
      ← Nat.mul_add_lt_is_or (show addr % 256 < 2 ^ 8 by norm_num; omega)]
    norm_num
    omega
  unfold cycleCalls
  rw [latchCalls_eq]
  by_cases h0 : addr % 256 = 0
  · rw [if_pos h0]
    simp only [List.cons_append, List.nil_append, regTrace_cons, Call.regs, Device.run_append]
    rw [run_write_address_high c hc d _ hd, run_write_address_low c hc,
      run_write_data c hc] <;> try exact hd
    simp only [e1, e2, e3]
    simp [regTrace, Device.run]
  · rw [if_neg h0]
    simp only [List.cons_append, List.nil_append, regTrace_cons, Call.regs, Device.run_append]
    rw [run_write_address_low c hc d _ hd, run_write_data c hc] <;> try exact hd
    simp only [e2, hh h0, e3]
    simp [regTrace, Device.run]

theorem run_loop (d₁ : Device) (buf : List Nat) (size : Nat)
    (hd : d₁.control =
      c.BIT_PROGRAM ||| c.BIT_ADDRESS_LOW_INVERTED ||| c.BIT_ADDRESS_HIGH_INVERTED)
    (hm : d₁.mem.size = 65536) (n : Nat) (hn : n ≤ 65536) :
    (Device.run c d₁ (regTrace c ((List.range n).flatMap (cycleCalls buf size)))).control =
        d₁.control ∧
      (0 < n →
        (Device.run c d₁ (regTrace c ((List.range n).flatMap (cycleCalls buf size)))).latchHigh =
          (n - 1) / 256) ∧
      (Device.run c d₁ (regTrace c ((List.range n).flatMap (cycleCalls buf size)))).mem.size =
        65536 ∧
      (∀ a,
        (Device.run c d₁ (regTrace c ((List.range n).flatMap (cycleCalls buf size)))).mem.getD a 0
          = if a < n then buf.getD (a % size) 0 % 256 else d₁.mem.getD a 0) ∧
      (Device.run c d₁
          (regTrace c ((List.range n).flatMap (cycleCalls buf size)))).stores.toList =
        d₁.stores.toList ++
          (List.range n).map fun a => (a / 256, a % 256, buf.getD (a % size) 0 % 256) := by
  induction n with
  | zero => simp [regTrace, Device.run, hm]
  | succ n ih =>
    obtain ⟨i1, i2, i3, i4, i5⟩ := ih (by omega)
    rw [flatMap_range_succ, regTrace_append, Device.run_append]
    generalize Device.run c d₁ (regTrace c ((List.range n).flatMap (cycleCalls buf size))) = d
      at i1 i2 i3 i4 i5 ⊢
    have hh : n % 256 ≠ 0 → d.latchHigh = n / 256 := by
      intro h0
      rw [i2 (by omega)]
      omega
    rw [run_cycle c hc d buf size n (by omega) (i1.trans hd) hh]
    refine ⟨i1, fun _ => by simp, by simpa using i3, ?_, ?_⟩
    · intro a
      simp only
      rw [getD_setD _ _ _ _ (by omega), i4 a]
      by_cases h1 : a = n
      · subst h1; simp
      · by_cases h2 : a < n
        · simp [h1, h2, show a < n + 1 by omega]
        · simp [h1, h2, show ¬ a < n + 1 by omega]
    · simp [i5, List.range_succ]

theorem run_prologue (d₀ : Device) :
    (Device.run c d₀ (Call.regs c (Call.pp_wdata 0) ++ Call.regs c Call.program_enable)).control
        = c.BIT_PROGRAM ||| c.BIT_ADDRESS_LOW_INVERTED ||| c.BIT_ADDRESS_HIGH_INVERTED ∧
      (Device.run c d₀ (Call.regs c (Call.pp_wdata 0) ++ Call.regs c Call.program_enable)).mem
        = d₀.mem ∧
      (Device.run c d₀ (Call.regs c (Call.pp_wdata 0) ++ Call.regs c Call.program_enable)).stores
        = d₀.stores := by
  simp [Device.run, Call.regs, program_enable, Device.step, data_not_in_idle c hc]

theorem run_program_disable (d : Device) :
    (Device.run c d (program_disable c)).mem = d.mem ∧
      (Device.run c d (program_disable c)).stores = d.stores := by
  simp [Device.run, program_disable, Device.step, disable_data c hc]

end Hardware

theorem regTrace_bracket (c : ControlBits) (body : List Call) :
    regTrace c (Call.pp_wdata 0 :: Call.program_enable :: (body ++ [Call.program_disable])) =
      (Call.regs c (Call.pp_wdata 0) ++ Call.regs c Call.program_enable) ++
        (regTrace c body ++ program_disable c) := by
  simp only [regTrace_cons, regTrace_append, List.append_assoc]
  simp [regTrace, Call.regs]

theorem byte_of_buffer (buf : List Nat) (hbytes : ∀ b ∈ buf, b < 256) (i : Nat)
    (hi : i < buf.length) :
    buf.getD i 0 % 256 = buf.getD i 0 ∧ buf[i]? = some (buf.getD i 0) := by
  have e : buf[i]? = some buf[i] := List.getElem?_eq_getElem hi
  have hv : buf.getD i 0 = buf[i] := by simp [List.getD, e]
  have hlt : buf[i] < 256 := hbytes _ (List.getElem_mem hi)
  rw [hv]
  exact ⟨Nat.mod_eq_of_lt hlt, e⟩

/-! ## C1: what the device memory holds after the transfer -/

/-- C1: with independent control lines, a buffer of `s` bytes, `1 ≤ s ≤ 65536`,
and any initial state of the hardware (64K cells), the register writes of the
whole transfer (`pp_wdata(0)`, `program_enable`, the 65536 cycles,
`program_disable`) leave `buf[a % s]` in the memory cell `a` for every
`a < 65536`.  The stores made by the device are exactly one per address, in
increasing address order, and at the store of address `a` the high latch holds
`a / 256`, the low latch holds `a % 256` and the data register holds
`buf[a % s]`. -/
theorem device_memory (c : ControlBits) (hc : c.Independent) (buf : List Nat) (s : Nat)
    (h1 : 1 ≤ s) (_h2 : s ≤ 65536) (hb : buf.length = s) (hbytes : ∀ b ∈ buf, b < 256)
    (d₀ : Device) (hm : d₀.mem.size = 65536) :
    (transfer buf s).2 = true ∧
      (∀ a, a < 65536 →
        buf[a % s]? = some ((Device.run c d₀ (regTrace c (transfer buf s).1)).cell a)) ∧
      (Device.run c d₀ (regTrace c (transfer buf s).1)).stores.toList =
        d₀.stores.toList ++
          (List.range 65536).map fun a => (a / 256, a % 256, buf.getD (a % s) 0) := by
  have hidx : ∀ a, a % s < buf.length := fun a => by rw [hb]; exact Nat.mod_lt a h1
  have htrace : regTrace c (transfer buf s).1 =
      (Call.regs c (Call.pp_wdata 0) ++ Call.regs c Call.program_enable) ++
        (regTrace c ((List.range 65536).flatMap (cycleCalls buf s)) ++ program_disable c) := by
    rw [transfer_eq buf s h1 hb, loopCalls_eq buf s h1 hb]
    exact regTrace_bracket c _
  obtain ⟨p1, p2, p3⟩ := run_prologue c hc d₀
  rw [htrace, Device.run_append, Device.run_append]
  generalize Device.run c d₀ (Call.regs c (Call.pp_wdata 0) ++ Call.regs c Call.program_enable)
    = d₁ at p1 p2 p3 ⊢
  obtain ⟨_, _, _, l4, l5⟩ := run_loop c hc d₁ buf s p1 (by rw [p2]; exact hm) 65536 (le_refl _)
  generalize Device.run c d₁ (regTrace c ((List.range 65536).flatMap (cycleCalls buf s)))
    = d₂ at l4 l5 ⊢
  obtain ⟨q1, q2⟩ := run_program_disable c hc d₂
  refine ⟨by rw [transfer_eq buf s h1 hb], ?_, ?_⟩
  · intro a ha
    unfold Device.cell
    rw [q1, l4 a, if_pos ha, (byte_of_buffer buf hbytes _ (hidx a)).1]
    exact (byte_of_buffer buf hbytes _ (hidx a)).2
  · have hmap : ∀ l : List Nat,
        (l.map fun a => (a / 256, a % 256, buf.getD (a % s) 0 % 256)) =
          l.map fun a => (a / 256, a % 256, buf.getD (a % s) 0) := by
      intro l
      apply List.map_congr_left
      intro a _
      rw [(byte_of_buffer buf hbytes _ (hidx a)).1]
    rw [q2, l5, p3, hmap]

/-- C1 at the three-byte buffer `[1, 2, 3]`, the lines of the PC port and a
device whose 65536 cells hold 0. -/
theorem device_memory_witness :
    parport.Independent ∧ 1 ≤ 3 ∧ 3 ≤ 65536 ∧ [1, 2, 3].length = 3 ∧
      (∀ b ∈ [1, 2, 3], b < 256) ∧
      ∀ a, a < 65536 →
        [1, 2, 3][a % 3]? =
          some ((Device.run parport ⟨0, 0, 0, 0, Array.mkArray 65536 0, #[]⟩
            (regTrace parport (transfer [1, 2, 3] 3).1)).cell a) :=
  ⟨by decide, by decide, by decide, rfl, by decide,
    (device_memory parport (by decide) [1, 2, 3] 3 (by decide) (by decide) rfl (by decide)
      ⟨0, 0, 0, 0, Array.mkArray 65536 0, #[]⟩ (by simp)).2.1⟩

/-! ## C12: enable directly followed by disable -/

/-- C12: `program_enable` directly followed by `program_disable` writes the
control register exactly twice, first `PROGRAM | ADDR_LOW_INV | ADDR_HIGH_INV`
and then `ADDR_LOW_INV | ADDR_HIGH_INV`, and never the data register. -/
theorem enable_disable_trace (c : ControlBits) :
    regTrace c [Call.program_enable, Call.program_disable] =
        [RegWrite.wcontrol
            (c.BIT_PROGRAM ||| c.BIT_ADDRESS_LOW_INVERTED ||| c.BIT_ADDRESS_HIGH_INVERTED),
          RegWrite.wcontrol (c.BIT_ADDRESS_LOW_INVERTED ||| c.BIT_ADDRESS_HIGH_INVERTED)] ∧
      program_enable c ++ program_disable c =
        regTrace c [Call.program_enable, Call.program_disable] ∧
      (controlWrites (regTrace c [Call.program_enable, Call.program_disable])).length = 2 ∧
      dataWrites (regTrace c [Call.program_enable, Call.program_disable]) = [] := by
  refine ⟨rfl, rfl, rfl, rfl⟩

/-! ## C13: the two address latches mirror each other -/

/-- C13: for every byte `b`, `write_address_low(b)` writes `b` to the data
register, then `PROGRAM | ADDR_HIGH_INV` and then
`PROGRAM | ADDR_LOW_INV | ADDR_HIGH_INV` to the control register;
`write_address_high(b)` writes `b`, then `PROGRAM | ADDR_LOW_INV`, then
`PROGRAM | ADDR_LOW_INV | ADDR_HIGH_INV`, which is the trace of
`write_address_low(b)` with the two latch-enable lines exchanged. -/
theorem latch_traces (c : ControlBits) (b : Nat) (hb : b < 256) :
    write_address_low c b =
        [RegWrite.wdata b,
          RegWrite.wcontrol (c.BIT_PROGRAM ||| c.BIT_ADDRESS_HIGH_INVERTED),
          RegWrite.wcontrol
            (c.BIT_PROGRAM ||| c.BIT_ADDRESS_LOW_INVERTED ||| c.BIT_ADDRESS_HIGH_INVERTED)] ∧
      write_address_high c b =
        [RegWrite.wdata b,
          RegWrite.wcontrol (c.BIT_PROGRAM ||| c.BIT_ADDRESS_LOW_INVERTED),
          RegWrite.wcontrol
            (c.BIT_PROGRAM ||| c.BIT_ADDRESS_LOW_INVERTED ||| c.BIT_ADDRESS_HIGH_INVERTED)] ∧
      write_address_high c b = write_address_low c.swapLatches b ∧
      write_address_low c b = write_address_high c.swapLatches b := by
  have e : b % 256 = b := Nat.mod_eq_of_lt hb
  have sw : ∀ x y z : Nat, x ||| y ||| z = x ||| z ||| y := by
    intro x y z
    rw [Nat.or_assoc, Nat.or_comm y z, ← Nat.or_assoc]
  refine ⟨?_, ?_, ?_, ?_⟩
  · simp [write_address_low, e]
  · simp [write_address_high, e]
  · simp only [write_address_high, write_address_low, ControlBits.swapLatches]
    rw [sw]
  · simp only [write_address_high, write_address_low, ControlBits.swapLatches]
    rw [sw]

/-- C13 at the byte `0xA5` with the lines of the PC port. -/
theorem latch_traces_witness :
    (0xA5 : Nat) < 256 ∧
      write_address_low parport 0xA5 =
        [RegWrite.wdata 0xA5, RegWrite.wcontrol 12, RegWrite.wcontrol 14] ∧
      write_address_high parport 0xA5 =
        [RegWrite.wdata 0xA5, RegWrite.wcontrol 10, RegWrite.wcontrol 14] ∧
      write_address_high parport 0xA5 = write_address_low parport.swapLatches 0xA5 :=
  ⟨by decide, by decide, by decide, (latch_traces parport 0xA5 (by decide)).2.2.1⟩

/-! ## C15: the size argument `0` -/

theorem transferLoop_zero (buf : List Nat) (log : Array Call) :
    transferLoop buf 0 0 log =
      (log ++ [Call.write_address_high 0, Call.write_address_low 0], false) := by
  rw [transferLoop]
  simp [fetch, latchCalls]

/-- C15: the size argument `0` (value 0, the whole argument consumed, `errno`
not `EINVAL`) is not rejected by the condition of line 134; the size left for
the rest of `main` is `0 * 1024 = 0`, for which `buf[addr % size]` has no value
at any address.  The run `-s 0 FILE` opens the file and the port, performs
`pp_wdata(0)`, `program_enable`, `write_address_high(0)`, `write_address_low(0)`
and is then cut short by the division by zero, without exit status, without
`program_disable` and without `pp_close`. -/
theorem zero_size_accepted :
    (∀ (U : Nat) (errno : Int), UINT32_MAX ≤ U → errno ≠ EINVAL →
        sizeInvalid U ⟨0, errno, 0⟩ = false) ∧
      effectiveSize 0 = 0 ∧
      (∀ (buf : List Nat) (addr : Nat), fetch buf 0 addr = none) ∧
      main ⟨18446744073709551615, [Opt.size ⟨0, 0, 0⟩], true, true, some [1, 2], true⟩ =
        ⟨[Effect.fileOpen, Effect.fileRead, Effect.ppOpen,
            Effect.port (Call.pp_wdata 0), Effect.port Call.program_enable,
            Effect.port (Call.write_address_high 0),
            Effect.port (Call.write_address_low 0)], none⟩ := by
  refine ⟨?_, by decide, ?_, ?_⟩
  · intro U errno hU he
    have hU' : 4294967295 ≤ U := hU
    have h1 : ((0 : Nat) == U) = false := by
      rw [beq_eq_false_iff_ne]; omega
    have h2 : (errno == EINVAL) = false := by
      rw [beq_eq_false_iff_ne]; exact he
    simp [sizeInvalid, h1, h2, UINT32_MAX]
  · intro buf addr
    simp [fetch]
  · have ho : optionLoop 18446744073709551615 [Opt.size ⟨0, 0, 0⟩] DEFAULT_SIZE =
        Except.ok 0 := rfl
    rw [main_of_transfer _ 0 [1, 2] ho rfl rfl rfl rfl]
    have ht : transfer (fillBuffer 0 [1, 2]) 0 =
        ([Call.pp_wdata 0, Call.program_enable, Call.write_address_high 0,
          Call.write_address_low 0], false) := by
      unfold transfer
      simp [transferLoop_zero]
    rw [ht]
    rfl

/-! ## C16: what the size condition accepts -/

/-- C16: a fully numeric size argument (nothing left after the number) with
parsed value `n > 0` is accepted exactly when `n ≤ 65536` and
`n & (n >> 1) = 0`, on every platform whose `ULONG_MAX` is at least
`UINT32_MAX` and whatever `errno` holds. -/
theorem validator_characterisation (U : Nat) (hU : UINT32_MAX ≤ U) (n : Nat) (hn : 0 < n)
    (errno : Int) :
    sizeInvalid U ⟨n, errno, 0⟩ = false ↔ n ≤ 65536 ∧ n &&& (n >>> 1) = 0 := by
  have hU' : 4294967295 ≤ U := hU
  have h0 : (n == 0) = false := by
    rw [beq_eq_false_iff_ne]; omega
  constructor
  · intro h
    have hle := le_of_not_sizeInvalid U _ h
    refine ⟨hle, ?_⟩
    by_contra hne
    have : ((n &&& (n >>> 1)) != 0) = true := by simpa using hne
    simp [sizeInvalid, this] at h
  · rintro ⟨hle, hand⟩
    have h1 : (n == U) = false := by
      rw [beq_eq_false_iff_ne]; omega
    have h3 : decide (n > UINT32_MAX) = false := by
      rw [decide_eq_false_iff_not]; unfold UINT32_MAX; omega
    have h4 : decide (n > 65536) = false := by
      rw [decide_eq_false_iff_not]; omega
    simp [sizeInvalid, h0, h1, h3, h4, hand]

/-- C16 at the argument `5`, accepted although it is not a power of two. -/
theorem validator_characterisation_witness :
    UINT32_MAX ≤ 18446744073709551615 ∧ 0 < 5 ∧
      (sizeInvalid 18446744073709551615 ⟨5, 0, 0⟩ = false ↔
        5 ≤ 65536 ∧ 5 &&& (5 >>> 1) = 0) :=
  ⟨by decide, by decide,
    validator_characterisation 18446744073709551615 (by decide) 5 (by decide) 0⟩

/-! ## C17: the latches and the data strobe -/

/-- The control values a call can write. -/
theorem control_value_cases (c : ControlBits) (x : Call) (v : Nat)
    (hv : RegWrite.wcontrol v ∈ Call.regs c x) :
    v = c.BIT_PROGRAM ||| c.BIT_ADDRESS_LOW_INVERTED ||| c.BIT_ADDRESS_HIGH_INVERTED ∨
      v = c.BIT_PROGRAM ||| c.BIT_ADDRESS_LOW_INVERTED ∨
      v = c.BIT_PROGRAM ||| c.BIT_ADDRESS_HIGH_INVERTED ∨
      v = c.BIT_PROGRAM ||| c.BIT_ADDRESS_LOW_INVERTED ||| c.BIT_ADDRESS_HIGH_INVERTED |||
        c.BIT_DATA ∨
      v = c.BIT_ADDRESS_LOW_INVERTED ||| c.BIT_ADDRESS_HIGH_INVERTED := by
  cases x with
  | pp_wdata b => simp [Call.regs] at hv
  | program_enable =>
    simp [Call.regs, program_enable] at hv
    exact Or.inl hv
  | program_disable =>
    simp [Call.regs, program_disable] at hv
    exact Or.inr (Or.inr (Or.inr (Or.inr hv)))
  | write_address_high b =>
    simp [Call.regs, write_address_high] at hv
    rcases hv with h | h
    · exact Or.inr (Or.inl h)
    · exact Or.inl h
  | write_address_low b =>
    simp [Call.regs, write_address_low] at hv
    rcases hv with h | h
    · exact Or.inr (Or.inr (Or.inl h))
    · exact Or.inl h
  | write_data b =>
    simp [Call.regs, write_data] at hv
    rcases hv with h | h
    · exact Or.inr (Or.inr (Or.inr (Or.inl h)))
    · exact Or.inl h

theorem mem_regTrace (c : ControlBits) (calls : List Call) (w : RegWrite)
    (hw : w ∈ regTrace c calls) : ∃ x ∈ calls, w ∈ Call.regs c x := by
  unfold regTrace at hw
  rw [List.mem_flatMap] at hw
  exact hw

/-- C17: with independent control lines, in the register trace of a transfer
every control write that asserts `DATA_STROBE` also asserts `ADDR_LOW_INV` and
`ADDR_HIGH_INV` (both latches closed), and every control write asserts at least
one of `ADDR_LOW_INV`, `ADDR_HIGH_INV` (never both latches open). -/
theorem latches_and_strobe (c : ControlBits) (hc : c.Independent) (buf : List Nat)
    (size : Nat) (v : Nat)
    (hv : RegWrite.wcontrol v ∈ regTrace c (transfer buf size).1) :
    (asserted c.BIT_DATA v →
        asserted c.BIT_ADDRESS_LOW_INVERTED v ∧ asserted c.BIT_ADDRESS_HIGH_INVERTED v) ∧
      (asserted c.BIT_ADDRESS_LOW_INVERTED v ∨ asserted c.BIT_ADDRESS_HIGH_INVERTED v) := by
  obtain ⟨x, _, hx⟩ := mem_regTrace c _ _ hv
  rcases control_value_cases c x v hx with h | h | h | h | h <;> subst h
  · exact ⟨fun hd => absurd hd (data_not_in_idle c hc), Or.inl (low_in_idle c hc)⟩
  · exact ⟨fun hd => absurd hd (high_open_data c hc), Or.inl (high_open_low c hc)⟩
  · exact ⟨fun hd => absurd hd (low_open_data c hc), Or.inr (low_open_high c hc)⟩
  · exact ⟨fun _ => ⟨strobe_low c hc, strobe_high c hc⟩, Or.inl (strobe_low c hc)⟩
  · exact ⟨fun hd => absurd hd (disable_data c hc),
      Or.inl (asserted_or_left _ (asserted_self hc.1))⟩

/-- C17 at the control write of `program_enable` (value 14 with the lines of
the PC port) in the transfer of the buffer `[1, 2, 3]`. -/
theorem latches_and_strobe_witness :
    parport.Independent ∧
      RegWrite.wcontrol 14 ∈ regTrace parport (transfer [1, 2, 3] 3).1 ∧
      (asserted parport.BIT_ADDRESS_LOW_INVERTED 14 ∨
        asserted parport.BIT_ADDRESS_HIGH_INVERTED 14) := by
  have hmem : RegWrite.wcontrol 14 ∈ regTrace parport (transfer [1, 2, 3] 3).1 := by
    rw [transfer_eq [1, 2, 3] 3 (by decide) rfl, regTrace_cons, regTrace_cons]
    simp [Call.regs, program_enable, parport]
  exact ⟨by decide, hmem,
    (latches_and_strobe parport (by decide) [1, 2, 3] 3 14 hmem).2⟩

/-! ## C11: the trace does not depend on the data -/

theorem latchCalls_blank (addr : Nat) :
    (latchCalls addr).map Call.blankData = latchCalls addr := by
  unfold latchCalls
  split <;> simp [Call.blankData]

theorem cycleCalls_blank (buf : List Nat) (size addr : Nat) :
    (cycleCalls buf size addr).map Call.blankData = latchCalls addr ++ [Call.write_data 0] := by
  unfold cycleCalls
  rw [List.map_append, latchCalls_blank]
  simp [Call.blankData]

theorem flatMap_cycle_blank (buf₁ buf₂ : List Nat) (s₁ s₂ : Nat) (l : List Nat) :
    (l.flatMap (cycleCalls buf₁ s₁)).map Call.blankData =
      (l.flatMap (cycleCalls buf₂ s₂)).map Call.blankData := by
  rw [List.map_flatMap, List.map_flatMap]
  congr 1
  funext addr
  rw [cycleCalls_blank, cycleCalls_blank]

theorem regs_length_of_kind (c : ControlBits) (x : Call)
    (hk : x.kind = Kind.high ∨ x.kind = Kind.low ∨ x.kind = Kind.data) :
    (Call.regs c x).length = 3 := by
  cases x <;> simp [Call.kind] at hk <;> rfl

theorem regTrace_length_of_kinds (c : ControlBits) (l : List Call)
    (hk : ∀ x ∈ l, x.kind = Kind.high ∨ x.kind = Kind.low ∨ x.kind = Kind.data) :
    (regTrace c l).length = 3 * l.length := by
  induction l with
  | nil => rfl
  | cons x l ih =>
    rw [regTrace_cons, List.length_append, List.length_cons,
      ih (fun y hy => hk y (List.mem_cons_of_mem _ hy)),
      regs_length_of_kind c x (hk x (List.mem_cons_self _ _))]
    omega

theorem forall₂_sameUpToData_append {a₁ a₂ b₁ b₂ : List RegWrite}
    (ha : List.Forall₂ RegWrite.sameUpToData a₁ a₂)
    (hb : List.Forall₂ RegWrite.sameUpToData b₁ b₂) :
    List.Forall₂ RegWrite.sameUpToData (a₁ ++ b₁) (a₂ ++ b₂) := by
  induction ha with
  | nil => exact hb
  | cons h _ ih => exact List.Forall₂.cons h ih

theorem regs_sameUpToData (c : ControlBits) (x y : Call)
    (h : x.blankData = y.blankData) :
    List.Forall₂ RegWrite.sameUpToData (Call.regs c x) (Call.regs c y) := by
  cases x <;> cases y <;> simp [Call.blankData] at h <;>
    simp [Call.regs, write_data, write_address_low, write_address_high, program_enable,
      program_disable, RegWrite.sameUpToData, h]

theorem regTrace_sameUpToData (c : ControlBits) :
    ∀ t₁ t₂ : List Call, t₁.map Call.blankData = t₂.map Call.blankData →
      List.Forall₂ RegWrite.sameUpToData (regTrace c t₁) (regTrace c t₂) := by
  intro t₁
  induction t₁ with
  | nil =>
    intro t₂ h
    cases t₂ with
    | nil => exact List.Forall₂.nil
    | cons y t₂ => simp at h
  | cons x t₁ ih =>
    intro t₂ h
    cases t₂ with
    | nil => simp at h
    | cons y t₂ =>
      simp only [List.map_cons, List.cons.injEq] at h
      rw [regTrace_cons, regTrace_cons]
      exact forall₂_sameUpToData_append (regs_sameUpToData c x y h.1) (ih t₂ h.2)

theorem controlWrites_eq_of_sameUpToData {t₁ t₂ : List RegWrite}
    (h : List.Forall₂ RegWrite.sameUpToData t₁ t₂) : controlWrites t₁ = controlWrites t₂ := by
  induction h with
  | nil => rfl
  | @cons a b l₁ l₂ hab _ ih =>
    cases a <;> cases b <;> simp [RegWrite.sameUpToData] at hab <;>
      simp [controlWrites, List.filterMap_cons] at ih ⊢
    · exact ih
    · exact ⟨hab, ih⟩

theorem transfer_regTrace_length (c : ControlBits) (buf : List Nat) (size : Nat)
    (hs : 0 < size) (hb : buf.length = size) :
    (regTrace c (transfer buf size).1).length = 393987 := by
  have hk := mem_loopCalls_kind buf size hs hb
  have hlen : (loopCalls buf size).length = callsBefore 65536 := by
    rw [loopCalls_eq buf size hs hb]
    exact (prefix_facts buf size 65536).1
  have hcb : callsBefore 65536 = 131328 := by
    unfold callsBefore
    norm_num
  have e₁ : (Call.regs c (Call.pp_wdata 0) ++ Call.regs c Call.program_enable).length = 2 :=
    rfl
  have e₂ : (program_disable c).length = 1 := rfl
  rw [transfer_eq buf size hs hb, regTrace_bracket,
    List.length_append (Call.regs c (Call.pp_wdata 0) ++ Call.regs c Call.program_enable) _,
    List.length_append (regTrace c (loopCalls buf size)) _,
    regTrace_length_of_kinds c _ hk, hlen, hcb, e₁, e₂]

theorem transfer_blank (buf₁ buf₂ : List Nat) (s₁ s₂ : Nat) (h₁ : 0 < s₁) (h₂ : 0 < s₂)
    (hb₁ : buf₁.length = s₁) (hb₂ : buf₂.length = s₂) :
    (transfer buf₁ s₁).1.map Call.blankData = (transfer buf₂ s₂).1.map Call.blankData := by
  rw [transfer_eq buf₁ s₁ h₁ hb₁, transfer_eq buf₂ s₂ h₂ hb₂,
    loopCalls_eq buf₁ s₁ h₁ hb₁, loopCalls_eq buf₂ s₂ h₂ hb₂]
  simp only [List.map_cons, List.map_append]
  rw [flatMap_cycle_blank buf₁ buf₂ s₁ s₂]

theorem strobedBytes_append (l₁ l₂ : List Call) :
    strobedBytes (l₁ ++ l₂) = strobedBytes l₁ ++ strobedBytes l₂ := by
  simp [strobedBytes, List.filterMap_append]

theorem strobedBytes_cycle (buf : List Nat) (size addr : Nat) :
    strobedBytes (cycleCalls buf size addr) = [buf.getD (addr % size) 0] := by
  unfold cycleCalls latchCalls
  split <;> simp [strobedBytes, List.filterMap_cons]

theorem strobedBytes_flatMap (buf : List Nat) (size : Nat) (l : List Nat) :
    strobedBytes (l.flatMap (cycleCalls buf size)) = l.map fun a => buf.getD (a % size) 0 := by
  induction l with
  | nil => rfl
  | cons a l ih =>
    rw [List.flatMap_cons, strobedBytes_append, strobedBytes_cycle, ih]
    rfl

theorem transfer_strobed (buf : List Nat) (size : Nat) (hs : 0 < size)
    (hb : buf.length = size) :
    strobedBytes (transfer buf size).1 =
      (List.range 65536).map fun a => buf.getD (a % size) 0 := by
  have key : ∀ body : List Call,
      strobedBytes (Call.pp_wdata 0 :: Call.program_enable :: (body ++ [Call.program_disable]))
        = strobedBytes body := by
    intro body
    simp [strobedBytes, List.filterMap_cons, List.filterMap_append]
  rw [transfer_eq buf size hs hb, key, loopCalls_eq buf size hs hb, strobedBytes_flatMap]

theorem transfer_strobed_length (buf : List Nat) (size : Nat) (hs : 0 < size)
    (hb : buf.length = size) : (strobedBytes (transfer buf size).1).length = 65536 := by
  rw [transfer_strobed buf size hs hb, List.length_map, List.length_range]

/-- C11: for two buffers of `s₁` and `s₂` bytes, both sizes in `[1, 65536]`,
the register traces of the two transfers both have 393987 writes, made by the
same calls apart from the bytes passed to `write_data`.  At every position the
two traces write the same register, and the same value when it is the control
register; the traces with the byte of every data strobe replaced by 0 are
equal, so the data writes of the address latches are identical too. -/
theorem traces_data_independent (c : ControlBits) (buf₁ buf₂ : List Nat) (s₁ s₂ : Nat)
    (h₁ : 1 ≤ s₁) (_h₁' : s₁ ≤ 65536) (hb₁ : buf₁.length = s₁)
    (h₂ : 1 ≤ s₂) (_h₂' : s₂ ≤ 65536) (hb₂ : buf₂.length = s₂) :
    (regTrace c (transfer buf₁ s₁).1).length = 393987 ∧
      (regTrace c (transfer buf₂ s₂).1).length = 393987 ∧
      (strobedBytes (transfer buf₁ s₁).1).length = 65536 ∧
      (strobedBytes (transfer buf₂ s₂).1).length = 65536 ∧
      (transfer buf₁ s₁).1.map Call.blankData = (transfer buf₂ s₂).1.map Call.blankData ∧
      List.Forall₂ RegWrite.sameUpToData
        (regTrace c (transfer buf₁ s₁).1) (regTrace c (transfer buf₂ s₂).1) ∧
      controlWrites (regTrace c (transfer buf₁ s₁).1) =
        controlWrites (regTrace c (transfer buf₂ s₂).1) ∧
      regTrace c ((transfer buf₁ s₁).1.map Call.blankData) =
        regTrace c ((transfer buf₂ s₂).1.map Call.blankData) := by
  have hbl := transfer_blank buf₁ buf₂ s₁ s₂ h₁ h₂ hb₁ hb₂
  have hf := regTrace_sameUpToData c _ _ hbl
  refine ⟨transfer_regTrace_length c buf₁ s₁ h₁ hb₁,
    transfer_regTrace_length c buf₂ s₂ h₂ hb₂, ?_, ?_, hbl, hf,
    controlWrites_eq_of_sameUpToData hf, by rw [hbl]⟩
  · exact transfer_strobed_length buf₁ s₁ h₁ hb₁
  · exact transfer_strobed_length buf₂ s₂ h₂ hb₂

/-- C11 at the buffers `[1, 2, 3]` and `[9]`. -/
theorem traces_data_independent_witness :
    1 ≤ 3 ∧ 3 ≤ 65536 ∧ [1, 2, 3].length = 3 ∧ 1 ≤ 1 ∧ 1 ≤ 65536 ∧ [9].length = 1 ∧
      (regTrace parport (transfer [1, 2, 3] 3).1).length = 393987 ∧
      controlWrites (regTrace parport (transfer [1, 2, 3] 3).1) =
        controlWrites (regTrace parport (transfer [9] 1).1) :=
  ⟨by decide, by decide, rfl, by decide, by decide, rfl,
    (traces_data_independent parport [1, 2, 3] [9] 3 1 (by decide) (by decide) rfl
      (by decide) (by decide) rfl).1,
    (traces_data_independent parport [1, 2, 3] [9] 3 1 (by decide) (by decide) rfl
      (by decide) (by decide) rfl).2.2.2.2.2.2.1⟩

/-! ## C19: every byte of the buffer is strobed -/

theorem count_mod_range (s i : Nat) (hi : i < s) (m : Nat) :
    ((List.range (m * s)).map (· % s)).count i = m := by
  induction m with
  | zero => simp
  | succ m ih =>
    have e : (m + 1) * s = m * s + s := by ring
    have hmap : ((List.range s).map (m * s + ·)).map (· % s) = List.range s := by
      rw [List.map_map]
      conv_rhs => rw [← List.map_id (List.range s)]
      apply List.map_congr_left
      intro j hj
      have hj' : j < s := List.mem_range.mp hj
      simp only [Function.comp_apply, id_eq]
      rw [Nat.add_comm, Nat.add_mul_mod_self_right]
      exact Nat.mod_eq_of_lt hj'
    rw [e, List.range_add, List.map_append, List.count_append, ih, hmap,
      List.count_eq_one_of_mem (List.nodup_range s) (List.mem_range.mpr hi)]

theorem count_mod_of_dvd (N s i : Nat) (hi : i < s) (hd : s ∣ N) :
    ((List.range N).map (· % s)).count i = N / s := by
  obtain ⟨m, rfl⟩ := hd
  rw [Nat.mul_div_cancel_left m (by omega : 0 < s), Nat.mul_comm]
  exact count_mod_range s i hi m

theorem mod_eq_iff_of_dvd (N s i a : Nat) (hi : i < s) (hd : s ∣ N) (ha : a < N) :
    a % s = i ↔ ∃ k, k < N / s ∧ a = i + k * s := by
  have hs : 0 < s := by omega
  constructor
  · intro h
    refine ⟨a / s, ?_, ?_⟩
    · rw [Nat.div_lt_iff_lt_mul hs, Nat.div_mul_cancel hd]
      exact ha
    · rw [← h, Nat.mul_comm]
      exact (Nat.mod_add_div a s).symm
  · rintro ⟨k, _, rfl⟩
    rw [Nat.add_mul_mod_self_right]
    exact Nat.mod_eq_of_lt hi

/-- C19: for every accepted size argument whose effective size `s` is not zero,
`s ≤ 65536`; the data strobe of address `a` carries the buffer byte of index
`a % s`, so the byte of every index `i < s` is strobed at address `i`.  When
`s` divides 65536 the index `i` is used by exactly `65536 / s` of the 65536
strobes, those of the addresses `i + k * s` with `k < 65536 / s`. -/
theorem buffer_coverage (U : Nat) (r : Strtoul) (h : sizeInvalid U r = false)
    (hs : 0 < effectiveSize r.tmp) (buf : List Nat) (hb : buf.length = effectiveSize r.tmp) :
    effectiveSize r.tmp ≤ 65536 ∧
      strobedBytes (transfer buf (effectiveSize r.tmp)).1 =
        ((List.range 65536).map fun a => buf.getD (a % effectiveSize r.tmp) 0) ∧
      (∀ i, i < effectiveSize r.tmp → i < 65536 ∧ i % effectiveSize r.tmp = i) ∧
      (effectiveSize r.tmp ∣ 65536 → ∀ i, i < effectiveSize r.tmp →
        ((List.range 65536).map (· % effectiveSize r.tmp)).count i =
            65536 / effectiveSize r.tmp ∧
          ∀ a, a < 65536 →
            (a % effectiveSize r.tmp = i ↔
              ∃ k, k < 65536 / effectiveSize r.tmp ∧ a = i + k * effectiveSize r.tmp)) := by
  have hle : effectiveSize r.tmp ≤ 65536 := by
    have hn := le_of_not_sizeInvalid U r h
    rw [effectiveSize_eq r.tmp hn]
    split <;> omega
  refine ⟨hle, transfer_strobed buf _ hs hb, ?_, ?_⟩
  · intro i hi
    exact ⟨by omega, Nat.mod_eq_of_lt hi⟩
  · intro hd i hi
    exact ⟨count_mod_of_dvd 65536 _ i hi hd,
      fun a ha => mod_eq_iff_of_dvd 65536 _ i a hi hd ha⟩

/-- C19 at the size argument `32` (32 KiB, effective size 32768) and a buffer
of 32768 bytes `0xFF`. -/
theorem buffer_coverage_witness :
    sizeInvalid 18446744073709551615 ⟨32, 0, 0⟩ = false ∧ 0 < effectiveSize 32 ∧
      (List.replicate (effectiveSize 32) 0xFF).length = effectiveSize 32 ∧
      effectiveSize 32 ≤ 65536 :=
  ⟨by decide, by decide, List.length_replicate _ _,
    (buffer_coverage 18446744073709551615 ⟨32, 0, 0⟩ (by decide) (by decide)
      (List.replicate (effectiveSize 32) 0xFF) (List.length_replicate _ _)).1⟩

/-! ## C18: the data register changes only in the idle state -/

theorem controlWrites_cons_wdata (v : Nat) (t : List RegWrite) :
    controlWrites (RegWrite.wdata v :: t) = controlWrites t := by
  simp [controlWrites, List.filterMap_cons]

theorem controlWrites_cons_wcontrol (v : Nat) (t : List RegWrite) :
    controlWrites (RegWrite.wcontrol v :: t) = v :: controlWrites t := by
  simp [controlWrites, List.filterMap_cons]

theorem controlWrites_append (t₁ t₂ : List RegWrite) :
    controlWrites (t₁ ++ t₂) = controlWrites t₁ ++ controlWrites t₂ := by
  simp [controlWrites, List.filterMap_append]

/-- What the scan `DataWhileIdle` says about each data write of the trace. -/
theorem dataWhileIdle_split (c : ControlBits) :
    ∀ (pre : List RegWrite) (cur : Option Nat) (t : List RegWrite), DataWhileIdle c cur t →
      ∀ v post, t = pre ++ RegWrite.wdata v :: post →
        (controlWrites pre = [] ∧ (cur = none ∨ cur = some (idle c))) ∨
          (controlWrites pre).getLast? = some (idle c) := by
  intro pre
  induction pre with
  | nil =>
    intro cur t ht v post e
    subst e
    exact Or.inl ⟨rfl, ht.1⟩
  | cons w pre ih =>
    intro cur t ht v post e
    subst e
    cases w with
    | wdata u =>
      rw [controlWrites_cons_wdata]
      exact ih cur _ ht.2 v post rfl
    | wcontrol u =>
      rw [controlWrites_cons_wcontrol]
      have ht' : DataWhileIdle c (some u) (pre ++ RegWrite.wdata v :: post) := ht
      rcases ih (some u) _ ht' v post rfl with ⟨h1, h2⟩ | h
      · right
        rcases h2 with h2 | h2
        · exact Option.noConfusion h2
        · rw [h1]
          exact h2
      · right
        rw [List.getLast?_cons, h]
        rfl

theorem dataWhileIdle_body (c : ControlBits) (l : List Call)
    (hk : ∀ x ∈ l, x.kind = Kind.high ∨ x.kind = Kind.low ∨ x.kind = Kind.data)
    (rest : List RegWrite) (hr : DataWhileIdle c (some (idle c)) rest) :
    DataWhileIdle c (some (idle c)) (regTrace c l ++ rest) := by
  induction l with
  | nil => exact hr
  | cons x l ih =>
    have ih' := ih (fun y hy => hk y (List.mem_cons_of_mem _ hy))
    have hx := hk x (List.mem_cons_self _ _)
    rw [regTrace_cons, List.append_assoc]
    cases x with
    | pp_wdata b => simp [Call.kind] at hx
    | program_enable => simp [Call.kind] at hx
    | program_disable => simp [Call.kind] at hx
    | write_address_high b => exact ⟨Or.inr rfl, ih'⟩
    | write_address_low b => exact ⟨Or.inr rfl, ih'⟩
    | write_data b => exact ⟨Or.inr rfl, ih'⟩

theorem transfer_dataWhileIdle (c : ControlBits) (buf : List Nat) (size : Nat)
    (hs : 0 < size) (hb : buf.length = size) :
    DataWhileIdle c none (regTrace c (transfer buf size).1) := by
  rw [transfer_eq buf size hs hb, regTrace_bracket]
  refine ⟨Or.inl rfl, ?_⟩
  exact dataWhileIdle_body c _ (mem_loopCalls_kind buf size hs hb) _ trivial

/-- C18: in the register trace of a complete transfer (buffer of `size > 0`
bytes) every data-register write is either the first write of the trace, the
initial write of 0, or comes when the last value written to the control
register is the idle value `PROGRAM | ADDR_LOW_INV | ADDR_HIGH_INV`.  With
independent lines that value has both latches closed and the strobe deasserted,
and from it each operation captures the value it wrote itself: the low latch
after `write_address_low(b)` and the high latch after `write_address_high(b)`
hold `b`, and `write_data(b)` makes the device store `b` at the latched
address. -/
theorem data_writes_while_idle (c : ControlBits) (hc : c.Independent) (buf : List Nat)
    (size : Nat) (hs : 0 < size) (hb : buf.length = size) :
    (∀ pre v post, regTrace c (transfer buf size).1 = pre ++ RegWrite.wdata v :: post →
        (pre = [] ∧ v = 0) ∨
          (controlWrites pre).getLast? =
            some (c.BIT_PROGRAM ||| c.BIT_ADDRESS_LOW_INVERTED |||
              c.BIT_ADDRESS_HIGH_INVERTED)) ∧
      (asserted c.BIT_ADDRESS_LOW_INVERTED
          (c.BIT_PROGRAM ||| c.BIT_ADDRESS_LOW_INVERTED ||| c.BIT_ADDRESS_HIGH_INVERTED) ∧
        asserted c.BIT_ADDRESS_HIGH_INVERTED
          (c.BIT_PROGRAM ||| c.BIT_ADDRESS_LOW_INVERTED ||| c.BIT_ADDRESS_HIGH_INVERTED) ∧
        ¬ asserted c.BIT_DATA
          (c.BIT_PROGRAM ||| c.BIT_ADDRESS_LOW_INVERTED ||| c.BIT_ADDRESS_HIGH_INVERTED)) ∧
      ∀ (d : Device) (b : Nat), b < 256 →
        d.control =
          c.BIT_PROGRAM ||| c.BIT_ADDRESS_LOW_INVERTED ||| c.BIT_ADDRESS_HIGH_INVERTED →
        (Device.run c d (write_address_low c b)).latchLow = b ∧
          (Device.run c d (write_address_high c b)).latchHigh = b ∧
          (Device.run c d (write_data c b)).stores =
            d.stores.push (d.latchHigh, d.latchLow, b) := by
  refine ⟨?_, ⟨low_in_idle c hc, high_in_idle c hc, data_not_in_idle c hc⟩, ?_⟩
  · intro pre v post e
    have hscan := transfer_dataWhileIdle c buf size hs hb
    rcases dataWhileIdle_split c pre none _ hscan v post e with ⟨h1, _⟩ | h
    · left
      rw [transfer_eq buf size hs hb, regTrace_bracket] at e
      cases pre with
      | nil =>
        refine ⟨rfl, ?_⟩
        simp [Call.regs] at e
        exact e.1.symm
      | cons w pre =>
        exfalso
        cases pre with
        | nil => simp [Call.regs, program_enable] at e
        | cons w' pre =>
          simp [Call.regs, program_enable] at e
          obtain ⟨e1, e2, _⟩ := e
          subst e1 e2
          simp [controlWrites, List.filterMap_cons] at h1
    · exact Or.inr h
  · intro d b hb' hd
    have e : b % 256 = b := Nat.mod_eq_of_lt hb'
    rw [run_write_address_low c hc d b hd, run_write_address_high c hc d b hd,
      run_write_data c hc d b hd, e]
    exact ⟨rfl, rfl, rfl⟩

/-- C18 at the three-byte buffer `[1, 2, 3]` with the lines of the PC port. -/
theorem data_writes_while_idle_witness :
    parport.Independent ∧ 0 < 3 ∧ [1, 2, 3].length = 3 ∧
      ∀ pre v post, regTrace parport (transfer [1, 2, 3] 3).1 =
          pre ++ RegWrite.wdata v :: post →
        (pre = [] ∧ v = 0) ∨ (controlWrites pre).getLast? = some 14 :=
  ⟨by decide, by decide, rfl,
    (data_writes_while_idle parport (by decide) [1, 2, 3] 3 (by decide) rfl).1⟩

/-! ## C14: the idle state and the strobe pulses -/

/-- The control values written by an address latch or a data strobe: one value,
then the idle value. -/
theorem controlWrites_regs_of_kind (c : ControlBits) (x : Call)
    (hk : x.kind = Kind.high ∨ x.kind = Kind.low ∨ x.kind = Kind.data) :
    ∃ a, controlWrites (Call.regs c x) = [a, idle c] ∧
      (x.kind = Kind.data → a = idle c ||| c.BIT_DATA) ∧
      (x.kind ≠ Kind.data →
        a = c.BIT_PROGRAM ||| c.BIT_ADDRESS_LOW_INVERTED ∨
          a = c.BIT_PROGRAM ||| c.BIT_ADDRESS_HIGH_INVERTED) := by
  cases x with
  | pp_wdata b => simp [Call.kind] at hk
  | program_enable => simp [Call.kind] at hk
  | program_disable => simp [Call.kind] at hk
  | write_address_high b =>
    exact ⟨_, rfl, fun h => by simp [Call.kind] at h, fun _ => Or.inl rfl⟩
  | write_address_low b =>
    exact ⟨_, rfl, fun h => by simp [Call.kind] at h, fun _ => Or.inr rfl⟩
  | write_data b =>
    exact ⟨_, rfl, fun _ => rfl, fun h => by simp [Call.kind] at h⟩

theorem controlWrites_regTrace_cons (c : ControlBits) (x : Call) (l : List Call) :
    controlWrites (regTrace c (x :: l)) =
      controlWrites (Call.regs c x) ++ controlWrites (regTrace c l) := by
  rw [regTrace_cons, controlWrites_append]

theorem last_control_idle (c : ControlBits) (l : List Call)
    (hk : ∀ x ∈ l, x.kind = Kind.high ∨ x.kind = Kind.low ∨ x.kind = Kind.data) :
    (idle c :: controlWrites (regTrace c l)).getLast? = some (idle c) := by
  induction l with
  | nil => rfl
  | cons x l ih =>
    obtain ⟨a, ha, _⟩ := controlWrites_regs_of_kind c x (hk x (List.mem_cons_self _ _))
    rw [controlWrites_regTrace_cons, ha]
    simp only [List.cons_append, List.nil_append, List.getLast?_cons_cons]
    exact ih (fun y hy => hk y (List.mem_cons_of_mem _ hy))

theorem not_data_of_latch (c : ControlBits) (hc : c.Independent) (a : Nat)
    (h : a = c.BIT_PROGRAM ||| c.BIT_ADDRESS_LOW_INVERTED ∨
      a = c.BIT_PROGRAM ||| c.BIT_ADDRESS_HIGH_INVERTED) : ¬ asserted c.BIT_DATA a := by
  rcases h with h | h <;> subst h
  · exact high_open_data c hc
  · exact low_open_data c hc

theorem pulsesClean_body (c : ControlBits) (hc : c.Independent) (l : List Call)
    (hk : ∀ x ∈ l, x.kind = Kind.high ∨ x.kind = Kind.low ∨ x.kind = Kind.data)
    (rest : List Nat) (hr : PulsesClean c (idle c) rest) :
    PulsesClean c (idle c) (controlWrites (regTrace c l) ++ rest) := by
  induction l with
  | nil => exact hr
  | cons x l ih =>
    have ih' := ih (fun y hy => hk y (List.mem_cons_of_mem _ hy))
    obtain ⟨a, ha, _, _⟩ := controlWrites_regs_of_kind c x (hk x (List.mem_cons_self _ _))
    rw [controlWrites_regTrace_cons, ha]
    exact ⟨fun _ => ⟨rfl, rfl⟩, fun hd => absurd hd (data_not_in_idle c hc), ih'⟩

theorem count_strobes_body (c : ControlBits) (hc : c.Independent) (l : List Call)
    (hk : ∀ x ∈ l, x.kind = Kind.high ∨ x.kind = Kind.low ∨ x.kind = Kind.data) :
    (controlWrites (regTrace c l)).countP (fun v => decide (asserted c.BIT_DATA v)) =
      (l.map Call.kind).count Kind.data := by
  induction l with
  | nil => rfl
  | cons x l ih =>
    have ih' := ih (fun y hy => hk y (List.mem_cons_of_mem _ hy))
    obtain ⟨a, ha, h1, h2⟩ := controlWrites_regs_of_kind c x (hk x (List.mem_cons_self _ _))
    have hidle : decide (asserted c.BIT_DATA (idle c)) = false :=
      decide_eq_false (data_not_in_idle c hc)
    rw [controlWrites_regTrace_cons, ha, List.countP_append, ih', List.map_cons,
      List.count_cons]
    by_cases hx : x.kind = Kind.data
    · have haD : decide (asserted c.BIT_DATA a) = true := by
        rw [h1 hx]
        exact decide_eq_true (strobe_data c hc)
      simp [List.countP_cons, haD, hidle, hx]
      omega
    · have haD : decide (asserted c.BIT_DATA a) = false :=
        decide_eq_false (not_data_of_latch c hc a (h2 hx))
      simp [List.countP_cons, haD, hidle, hx]

/-- What the scan `PulsesClean` says about each strobe value, by position. -/
theorem pulsesClean_index (c : ControlBits) :
    ∀ (cs : List Nat) (prev : Nat), PulsesClean c prev cs →
      ∀ i v, cs[i]? = some v → asserted c.BIT_DATA v →
        (i = 0 → prev = idle c) ∧ (0 < i → cs[i - 1]? = some (idle c)) ∧
          cs[i + 1]? = some (idle c) := by
  intro cs
  induction cs with
  | nil => intro prev _ i v hv; simp at hv
  | cons w cs ih =>
    intro prev hp i v hv hd
    cases i with
    | zero =>
      simp at hv
      subst hv
      obtain ⟨h1, h2⟩ := hp.1 hd
      refine ⟨fun _ => h1, fun h => absurd h (by omega), ?_⟩
      simpa [List.head?_eq_getElem?] using h2
    | succ i =>
      simp only [List.getElem?_cons_succ] at hv
      obtain ⟨g1, g2, g3⟩ := ih w hp.2 i v hv hd
      refine ⟨fun h => absurd h (by omega), fun _ => ?_, ?_⟩
      · cases i with
        | zero => simp [g1 rfl]
        | succ j => simpa using g2 (by omega)
      · simpa using g3

theorem controlWrites_bracket (c : ControlBits) (body : List Call) :
    controlWrites (regTrace c
        (Call.pp_wdata 0 :: Call.program_enable :: (body ++ [Call.program_disable]))) =
      idle c :: (controlWrites (regTrace c body) ++
        [c.BIT_ADDRESS_LOW_INVERTED ||| c.BIT_ADDRESS_HIGH_INVERTED]) := by
  rw [regTrace_bracket, controlWrites_append, controlWrites_append, controlWrites_append]
  rfl

theorem controlWrites_prologue (c : ControlBits) (l : List Call) :
    controlWrites (regTrace c (Call.pp_wdata 0 :: Call.program_enable :: l)) =
      idle c :: controlWrites (regTrace c l) := by
  rw [regTrace_cons, regTrace_cons, controlWrites_append, controlWrites_append]
  rfl

theorem loopCalls_count_data (buf : List Nat) (size : Nat) (hs : 0 < size)
    (hb : buf.length = size) :
    ((loopCalls buf size).map Call.kind).count Kind.data = 65536 := by
  have hc := count_kinds 65536
  simp only at hc
  rw [loopCalls_eq buf size hs hb, kinds_flatMap]
  exact hc.1

/-- C14: in a complete transfer (buffer of `size > 0` bytes, independent control
lines), after `program_enable` and after every later call before
`program_disable` (that is, after each `write_address_high`,
`write_address_low` and `write_data`) the last value written to the control
register is the idle value `PROGRAM | ADDR_LOW_INV | ADDR_HIGH_INV`, in which
`DATA_STROBE` is not asserted.  Among the control writes of the whole trace,
every value that asserts `DATA_STROBE` has a predecessor and a successor, both
the idle value, and there are exactly 65536 such values: one pulse per
cycle. -/
theorem idle_invariant (c : ControlBits) (hc : c.Independent) (buf : List Nat) (size : Nat)
    (hs : 0 < size) (hb : buf.length = size) :
    idle c = c.BIT_PROGRAM ||| c.BIT_ADDRESS_LOW_INVERTED ||| c.BIT_ADDRESS_HIGH_INVERTED ∧
      ¬ asserted c.BIT_DATA (idle c) ∧
      (∀ k, 2 ≤ k → k < (transfer buf size).1.length →
        (controlWrites (regTrace c ((transfer buf size).1.take k))).getLast? =
          some (idle c)) ∧
      (∀ i v, (controlWrites (regTrace c (transfer buf size).1))[i]? = some v →
        asserted c.BIT_DATA v →
        0 < i ∧
          (controlWrites (regTrace c (transfer buf size).1))[i - 1]? = some (idle c) ∧
          (controlWrites (regTrace c (transfer buf size).1))[i + 1]? = some (idle c)) ∧
      (controlWrites (regTrace c (transfer buf size).1)).countP
          (fun v => decide (asserted c.BIT_DATA v)) = 65536 := by
  have hk := mem_loopCalls_kind buf size hs hb
  have hidle : ¬ asserted c.BIT_DATA (idle c) := data_not_in_idle c hc
  rw [transfer_eq buf size hs hb]
  refine ⟨rfl, hidle, ?_, ?_, ?_⟩
  · intro k hk2 hklen
    obtain ⟨k', rfl⟩ : ∃ k', k = k' + 2 := ⟨k - 2, by omega⟩
    simp only [List.length_cons, List.length_append, List.length_nil] at hklen
    rw [List.take_succ_cons, List.take_succ_cons,
      List.take_append_of_le_length (by omega), controlWrites_prologue]
    exact last_control_idle c _ (fun x hx => hk x (List.mem_of_mem_take hx))
  · intro i v hv hd
    rw [controlWrites_bracket] at hv ⊢
    have hscan : PulsesClean c (idle c)
        (idle c :: (controlWrites (regTrace c (loopCalls buf size)) ++
          [c.BIT_ADDRESS_LOW_INVERTED ||| c.BIT_ADDRESS_HIGH_INVERTED])) :=
      ⟨fun h => absurd h hidle,
        pulsesClean_body c hc _ hk _ ⟨fun h => absurd h (disable_data c hc), trivial⟩⟩
    obtain ⟨_, g2, g3⟩ := pulsesClean_index c _ _ hscan i v hv hd
    have hi : 0 < i := by
      rcases Nat.eq_zero_or_pos i with h0 | h0
      · subst h0
        simp at hv
        subst hv
        exact absurd hd hidle
      · exact h0
    exact ⟨hi, g2 hi, g3⟩
  · rw [controlWrites_bracket, List.countP_cons, List.countP_append,
      count_strobes_body c hc _ hk, loopCalls_count_data buf size hs hb]
    have h1 : decide (asserted c.BIT_DATA (idle c)) = false := decide_eq_false hidle
    have h2 : decide (asserted c.BIT_DATA
        (c.BIT_ADDRESS_LOW_INVERTED ||| c.BIT_ADDRESS_HIGH_INVERTED)) = false :=
      decide_eq_false (disable_data c hc)
    simp [List.countP_cons, h1, h2]

/-- C14 at the three-byte buffer `[1, 2, 3]` with the lines of the PC port. -/
theorem idle_invariant_witness :
    parport.Independent ∧ 0 < 3 ∧ [1, 2, 3].length = 3 ∧
      ¬ asserted parport.BIT_DATA (idle parport) ∧
      (controlWrites (regTrace parport (transfer [1, 2, 3] 3).1)).countP
          (fun v => decide (asserted parport.BIT_DATA v)) = 65536 :=
  ⟨by decide, by decide, rfl,
    (idle_invariant parport (by decide) [1, 2, 3] 3 (by decide) rfl).2.1,
    (idle_invariant parport (by decide) [1, 2, 3] 3 (by decide) rfl).2.2.2.2⟩

/-! ## C2 at the size 0 -/

/-- C2 does not hold for the size 0: with the empty buffer, the buffer `main`
builds for the size 0, the loop makes the two address-latch calls of address 0
and stops at `buf[addr % size]`; it makes no `write_data` call, one
`write_address_low` call and one `write_address_high` call instead of 65536,
65536 and 256, and the transfer does not run to completion. -/
theorem loop_stops_at_size_zero :
    fillBuffer 0 [1, 2] = [] ∧ ([] : List Nat).length = 0 ∧
      loopCalls [] 0 = [Call.write_address_high 0, Call.write_address_low 0] ∧
      (transfer [] 0).2 = false ∧
      ((loopCalls [] 0).map Call.kind).count Kind.data = 0 ∧
      ((loopCalls [] 0).map Call.kind).count Kind.low = 1 ∧
      ((loopCalls [] 0).map Call.kind).count Kind.high = 1 ∧
      ¬ (((loopCalls [] 0).map Call.kind).count Kind.data = 65536 ∧
          ((loopCalls [] 0).map Call.kind).count Kind.low = 65536 ∧
          ((loopCalls [] 0).map Call.kind).count Kind.high = 256) := by
  have hl : loopCalls [] 0 = [Call.write_address_high 0, Call.write_address_low 0] := by
    unfold loopCalls
    rw [transferLoop_zero]
    exact toList_empty_appendList _
  have ht : (transfer [] 0).2 = false := by
    unfold transfer
    simp [transferLoop_zero]
  rw [hl]
  refine ⟨by decide, rfl, rfl, ht, by decide, by decide, by decide, by decide⟩

end Ils5011
